import Mathlib

/-!
Verification development for the redflags-data repository.

The repository maintains two polars tables (billionaire person-snapshots and
asset-snapshots) and repairs them with a four-stage pipeline
(src/repairs_lib.py), persists them through a schema adapter
(src/data_lib.py), and appends daily fetches (src/get_data.py).

Shallow embedding conventions:
  * A dataframe is a `List` of typed row records; a polars `null` is `none`.
  * `pl.Date` values are modelled as `Nat`; `pl.Decimal` values as scaled
    integers (`Int`), which is exact for fixed-point decimals.
  * polars `sort` is modelled as a stable sort (`List.insertionSort`);
    `unique(subset, keep="first")` keeps the first row of each key group in
    frame order.  Categorical columns are ordered by their string value in
    the model; no claim below depends on the relative order of two distinct
    key values, only on grouping and on the order within a key group.
  * The string concatenation keys built with `pl.concat_str` are modelled as
    `List Char` values; numeric components are rendered with an injective
    textual rendering, as polars does.
  * Python functions that raise are modelled with `Except String`.
-/

set_option maxHeartbeats 1000000

namespace RedFlags

/-! ## Python string primitives (str.strip, the unknown-sentinel regexes) -/

/-- Python `str.strip()` whitespace set (ASCII part). -/
def pyIsSpace (c : Char) : Bool :=
  c = ' ' || c = '\t' || c = '\n' || c = '\r' || c = '\x0b' || c = '\x0c'

def pyStripList (l : List Char) : List Char :=
  ((l.dropWhile pyIsSpace).reverse.dropWhile pyIsSpace).reverse

/-- Python `str.strip()` on both ends. -/
def pyStrip (s : String) : String :=
  String.mk (pyStripList s.data)

/-- ASCII lower-casing, the effect of the `(?i)` regex flag on the
ASCII-letter patterns used by the normalizer. -/
def asciiLower (c : Char) : Char :=
  if 'A' ≤ c ∧ c ≤ 'Z' then Char.ofNat (c.toNat + 32) else c

/-- `\d+` : a nonempty run of digits. -/
def allDigits (l : List Char) : Bool :=
  match l with
  | [] => false
  | _ :: _ => l.all Char.isDigit

/-- `-?\d+` : an optional minus sign followed by digits. -/
def intLitChars (l : List Char) : Bool :=
  match l with
  | '-' :: rest => allDigits rest
  | _ => allDigits l

/-- The 0th-order sentinel patterns `(?i)^unknown$` and `(?i)^unknown_-?\d+$`
(full-value match; the value has already been stripped, so the `^`/`$`
anchors amount to a full match). -/
def isUnknownSentinel (s : String) : Bool :=
  match s.data.map asciiLower with
  | ['u', 'n', 'k', 'n', 'o', 'w', 'n'] => true
  | 'u' :: 'n' :: 'k' :: 'n' :: 'o' :: 'w' :: 'n' :: '_' :: rest => intLitChars rest
  | _ => false

/-- `clean_value` from `clean_whitespace_and_unknowns`: strip, map empty
and sentinel values to null, otherwise keep the stripped value. -/
def cleanValue : Option String → Option String
  | none => none
  | some v =>
    if pyStrip v = "" then none
    else if isUnknownSentinel (pyStrip v) then none
    else some (pyStrip v)

/-- `pl.when(col == "").then(None).otherwise(col)`. -/
def emptyToNone : Option String → Option String
  | none => none
  | some s => if s = "" then none else some s

/-! ## Orders on characters and character lists (for modelled sorts) -/

def charLt (a b : Char) : Bool :=
  decide (a < b)

/-- Lexicographic strict order on character lists. -/
def charListLt : List Char → List Char → Bool
  | [], [] => false
  | [], _ :: _ => true
  | _ :: _, [] => false
  | a :: as, b :: bs => if a = b then charListLt as bs else charLt a b

/-- Textual rendering of a `Nat` (the `cast(pl.Utf8)` of a date or number). -/
def natChars (n : Nat) : List Char :=
  Nat.toDigits 10 n

/-- Textual rendering of an `Int` (the `cast(pl.Utf8)` of a decimal). -/
def intChars (i : Int) : List Char :=
  if i < 0 then '-' :: natChars i.natAbs else natChars i.natAbs

/-! ## Row records (schemas from src/data_lib.py) -/

/-- One person-snapshot row (`get_billionaires_schema`). -/
structure BillRow where
  date : Nat
  personName : Option String
  lastName : Option String
  birthDate : Option Nat
  gender : Option String
  countryOfCitizenship : Option String
  city : Option String
  state : Option String
  source : Option String
  industries : Option String
  finalWorth : Option Int
  estWorthPrev : Option Int
  archivedWorth : Option Int
  privateAssetsWorth : Option Int
deriving DecidableEq

/-- One asset-snapshot row (`get_assets_schema`). -/
structure AssetRow where
  date : Nat
  personName : Option String
  companyName : Option String
  currencyCode : Option String
  currentPrice : Option Int
  exchange : Option String
  exchangeRate : Option Int
  exerciseOptionPrice : Option Int
  interactive : Option Bool
  numberOfShares : Option Int
  sharePrice : Option Int
  ticker : Option String
deriving DecidableEq

/-! ## 0th order: clean_whitespace_and_unknowns -/

/-- Apply `clean_value` to every string-typed column of a billionaires row
(the date and the decimal columns are not string-typed and pass through). -/
def cleanBillRow (r : BillRow) : BillRow :=
  { r with
    personName := cleanValue r.personName
    lastName := cleanValue r.lastName
    gender := cleanValue r.gender
    countryOfCitizenship := cleanValue r.countryOfCitizenship
    city := cleanValue r.city
    state := cleanValue r.state
    source := cleanValue r.source
    industries := cleanValue r.industries }

def cleanWhitespaceAndUnknownsBill (rows : List BillRow) : List BillRow :=
  rows.map cleanBillRow

/-- Apply `clean_value` to every string-typed column of an assets row
(the boolean and decimal columns are not string-typed and pass through). -/
def cleanAssetRow (r : AssetRow) : AssetRow :=
  { r with
    personName := cleanValue r.personName
    companyName := cleanValue r.companyName
    currencyCode := cleanValue r.currencyCode
    exchange := cleanValue r.exchange
    ticker := cleanValue r.ticker }

def cleanWhitespaceAndUnknownsAssets (rows : List AssetRow) : List AssetRow :=
  rows.map cleanAssetRow

/-! ## A stable sort wrapper over Boolean comparators -/

def sortB (le : β → β → Bool) (l : List β) : List β :=
  @List.insertionSort β (fun a b => le a b = true) (fun a b => instDecidableEqBool _ _) l

/-! ## 1st order: identity consistency (billionaires only) -/

/-- The empty-string cleaning applied to `lastName` and `gender` in both
`find_canonical_identity_values` and `apply_identity_fixes`. -/
def cleanIdentityEmptyStrings (r : BillRow) : BillRow :=
  { r with
    lastName := emptyToNone r.lastName
    gender := emptyToNone r.gender }

/-- `person_data.sort("date", descending=True)` comparator. -/
def dateDescLe (a b : BillRow) : Bool :=
  decide (b.date ≤ a.date)

/-- The per-person frame used by `find_canonical_identity_values`: the
cleaned rows of one identity-key value, sorted by date descending.  Rows
with a null `personName` never join back (polars joins do not match nulls),
so only non-null key values need a group. -/
def identityGroup (rows : List BillRow) (n : String) : List BillRow :=
  sortB dateDescLe ((rows.map cleanIdentityEmptyStrings).filter fun r =>
    decide (r.personName = some n))

/-- The most recent non-null value of a field within a date-descending
frame (`non_null[field][0] if len(non_null) > 0 else None`). -/
def canonicalField (get : BillRow → Option α) (l : List BillRow) : Option α :=
  (l.find? fun r => (get r).isSome).bind get

/-- One row after `apply_identity_fixes`: the cleaned row with every fix
field overwritten by its identity key's canonical value; rows whose
identity key is null receive nulls, because the left join on `personName`
does not match null keys (`join_nulls` defaults to false).  The cleaning
does not touch `personName`, so matching on the original key is the same
as matching on the cleaned one. -/
def fixIdentityRow (rows : List BillRow) (r : BillRow) : BillRow :=
  match r.personName with
  | some n =>
    { cleanIdentityEmptyStrings r with
      lastName := canonicalField (fun x => x.lastName) (identityGroup rows n)
      birthDate := canonicalField (fun x => x.birthDate) (identityGroup rows n)
      gender := canonicalField (fun x => x.gender) (identityGroup rows n) }
  | none =>
    { cleanIdentityEmptyStrings r with lastName := none, birthDate := none, gender := none }

/-- `apply_identity_fixes` composed with `find_canonical_identity_values`. -/
def applyIdentityFixes (rows : List BillRow) : List BillRow :=
  rows.map (fixIdentityRow rows)

/-- `repair_identity_consistency` with no people filter.  On an empty
table, `find_canonical_identity_values` returns a dataframe with no
columns, and `apply_identity_fixes` then raises a column-not-found error
when selecting the id keys from it. -/
def repairIdentityConsistency (rows : List BillRow) : Except String (List BillRow) :=
  if rows.isEmpty then Except.error "ColumnNotFoundError: personName"
  else Except.ok (applyIdentityFixes rows)

/-! ## 2nd order: forward/backward fill (billionaires only) -/

/-- `clean_second_order_empty_strings` on one row. -/
def cleanSecondOrderRow (r : BillRow) : BillRow :=
  { r with
    countryOfCitizenship := emptyToNone r.countryOfCitizenship
    city := emptyToNone r.city
    state := emptyToNone r.state
    source := emptyToNone r.source
    industries := emptyToNone r.industries }

/-- Encoding of an `Option String` sort key: nulls sort first (polars
default), then by string value. -/
def optNameLt (a b : Option String) : Bool :=
  match a, b with
  | none, none => false
  | none, some _ => true
  | some _, none => false
  | some x, some y => charListLt x.data y.data

/-- `df.sort(["personName", "date"])` comparator (also the billionaires
save-sort key from `get_sort_columns`). -/
def nameDateLe (a b : BillRow) : Bool :=
  if a.personName = b.personName then decide (a.date ≤ b.date)
  else optNameLt a.personName b.personName

/-- The value a forward fill assigns to row `r`: its own value when
non-null, else the most recently seen non-null value of the same window
partition; `hist` holds the already processed rows, most recent first. -/
def fillValue (key : β → κ) [DecidableEq κ] (get : β → Option α) (hist : List β) (r : β) :
    Option α :=
  match get r with
  | some x => some x
  | none => ((hist.filter fun h => decide (key h = key r)).find? fun h =>
      (get h).isSome).bind get

/-- One pass of `fill_null(strategy="forward").over(key)`. -/
def ffillGo (key : β → κ) [DecidableEq κ] (get : β → Option α) (set : β → Option α → β)
    (hist : List β) : List β → List β
  | [] => []
  | r :: rest => set r (fillValue key get hist r) :: ffillGo key get set (r :: hist) rest

/-- `apply_forward_backward_fill` for one field: forward fill within each
partition, then backward fill what is still null (the backward pass is a
forward pass over the reversed frame). -/
def applyForwardBackwardFill (key : β → κ) [DecidableEq κ] (get : β → Option α)
    (set : β → Option α → β) (rows : List β) : List β :=
  (ffillGo key get set [] (ffillGo key get set [] rows).reverse).reverse

def billKey (r : BillRow) : Option String :=
  r.personName

def setCountry (r : BillRow) (v : Option String) : BillRow :=
  { r with countryOfCitizenship := v }

def setCity (r : BillRow) (v : Option String) : BillRow :=
  { r with city := v }

def setState (r : BillRow) (v : Option String) : BillRow :=
  { r with state := v }

def setSource (r : BillRow) (v : Option String) : BillRow :=
  { r with source := v }

def setIndustries (r : BillRow) (v : Option String) : BillRow :=
  { r with industries := v }

def fillCountry (rows : List BillRow) : List BillRow :=
  applyForwardBackwardFill billKey (fun r => r.countryOfCitizenship) setCountry rows

def fillCity (rows : List BillRow) : List BillRow :=
  applyForwardBackwardFill billKey (fun r => r.city) setCity rows

def fillState (rows : List BillRow) : List BillRow :=
  applyForwardBackwardFill billKey (fun r => r.state) setState rows

def fillSource (rows : List BillRow) : List BillRow :=
  applyForwardBackwardFill billKey (fun r => r.source) setSource rows

def fillIndustries (rows : List BillRow) : List BillRow :=
  applyForwardBackwardFill billKey (fun r => r.industries) setIndustries rows

/-- `repair_second_order_fields` with no people filter: convert empty
strings to nulls, sort by (personName, date), then forward/backward fill
each slowly-changing field in the fixed field order. -/
def repairSecondOrderFields (rows : List BillRow) : List BillRow :=
  fillIndustries (fillSource (fillState (fillCity (fillCountry
    (sortB nameDateLe (rows.map cleanSecondOrderRow))))))

/-! ## 3rd order: deduplication -/

/-- `date|personName` key of `deduplicate_billionaires`
(`pl.concat_str([date.cast(Utf8), personName.fill_null("")], "|")`). -/
def billDedupKey (r : BillRow) : List Char :=
  natChars r.date ++ '|' :: (r.personName.getD "").data

/-- `finalWorth_for_sort`: the tie-break measure, null treated as 0. -/
def billMeasure (r : BillRow) : Int :=
  r.finalWorth.getD 0

/-- Lexicographic comparator for a multi-column sort
`[key ascending, measure descending]`. -/
def keyedLe (key : β → List Char) (m : β → Int) (a b : β) : Bool :=
  if key a = key b then decide (m b ≤ m a) else charListLt (key a) (key b)

def billSortLe : BillRow → BillRow → Bool :=
  keyedLe billDedupKey billMeasure

/-- `unique(subset=[key], keep="first")` on a frame, keeping the first row
of each key group in frame order; `seen` is the set of keys already kept. -/
def uniqueByKeyGo (key : β → κ) [DecidableEq κ] (seen : List κ) : List β → List β
  | [] => []
  | r :: rest =>
    if key r ∈ seen then uniqueByKeyGo key seen rest
    else r :: uniqueByKeyGo key (key r :: seen) rest

def uniqueByKey (key : β → κ) [DecidableEq κ] (l : List β) : List β :=
  uniqueByKeyGo key [] l

/-- `deduplicate_billionaires`: sort by (dedup key asc, finalWorth desc)
and keep the first row of each key group. -/
def deduplicateBillionaires (rows : List BillRow) : List BillRow :=
  uniqueByKey billDedupKey (sortB billSortLe rows)

/-- `clean_and_prepare_for_deduplication` for billionaires: drop rows in
which both `personName` and `lastName` are null. -/
def cleanAndPrepareBillionaires (rows : List BillRow) : List BillRow :=
  rows.filter fun r => decide (¬(r.personName = none ∧ r.lastName = none))

def repairDeduplicationBillionaires (rows : List BillRow) : List BillRow :=
  deduplicateBillionaires (cleanAndPrepareBillionaires rows)

def pyBoolChars : Bool → List Char
  | true => ['t', 'r', 'u', 'e']
  | false => ['f', 'a', 'l', 's', 'e']

def optChars (f : α → List Char) : Option α → List Char
  | some x => f x
  | none => []

/-- The nine-component dedup key of `deduplicate_assets`, nulls rendered as
empty strings, non-string components cast to their textual rendering. -/
def assetDedupKey (r : AssetRow) : List Char :=
  natChars r.date ++ '|' :: (r.personName.getD "").data ++ '|' :: (r.ticker.getD "").data
    ++ '|' :: (r.companyName.getD "").data ++ '|' :: (r.currencyCode.getD "").data
    ++ '|' :: (r.exchange.getD "").data ++ '|' :: optChars pyBoolChars r.interactive
    ++ '|' :: optChars intChars r.exchangeRate
    ++ '|' :: optChars intChars r.exerciseOptionPrice

/-- `numberOfShares_for_sort`: the tie-break measure, null treated as 0. -/
def assetMeasure (r : AssetRow) : Int :=
  r.numberOfShares.getD 0

def assetSortLe : AssetRow → AssetRow → Bool :=
  keyedLe assetDedupKey assetMeasure

/-- `deduplicate_assets`: sort by (dedup key asc, numberOfShares desc) and
keep the first row of each key group. -/
def deduplicateAssets (rows : List AssetRow) : List AssetRow :=
  uniqueByKey assetDedupKey (sortB assetSortLe rows)

/-- `clean_and_prepare_for_deduplication` for assets: drop rows with a
null `personName`. -/
def cleanAndPrepareAssets (rows : List AssetRow) : List AssetRow :=
  rows.filter fun r => decide (¬r.personName = none)

def repairDeduplicationAssets (rows : List AssetRow) : List AssetRow :=
  deduplicateAssets (cleanAndPrepareAssets rows)

/-! ## Schema/storage adapter dispatch (src/data_lib.py) -/

/-- `get_sort_columns`: raises `ValueError` on an unknown dataset type. -/
def getSortColumns (datasetType : String) : Except String (List String) :=
  if datasetType = "billionaires" then
    Except.ok ["personName", "date"]
  else if datasetType = "assets" then
    Except.ok ["personName", "companyName", "interactive", "date"]
  else Except.error ("Unknown dataset type: " ++ datasetType)

/-- A loaded table of either schema. -/
inductive DatasetPayload
  | bill (rows : List BillRow)
  | assets (rows : List AssetRow)
deriving DecidableEq

/-- `load_dataset`: dispatch on the dataset type, raising `ValueError` on
an unknown type; file reading and schema coercion are abstracted as the
optional stored payloads (a missing file raises `FileNotFoundError`). -/
def loadDataset (billFile : Option (List BillRow)) (assetFile : Option (List AssetRow))
    (datasetType : String) : Except String DatasetPayload :=
  if datasetType = "billionaires" then
    match billFile with
    | some rows => Except.ok (DatasetPayload.bill rows)
    | none => Except.error "FileNotFoundError"
  else if datasetType = "assets" then
    match assetFile with
    | some rows => Except.ok (DatasetPayload.assets rows)
    | none => Except.error "FileNotFoundError"
  else Except.error ("Unknown dataset type: " ++ datasetType)

def optBoolLt (a b : Option Bool) : Bool :=
  match a, b with
  | none, some _ => true
  | some false, some true => true
  | _, _ => false

/-- `df.sort(["personName", "companyName", "interactive", "date"])`
comparator used when saving assets. -/
def assetSaveLe (a b : AssetRow) : Bool :=
  if a.personName = b.personName then
    if a.companyName = b.companyName then
      if a.interactive = b.interactive then decide (a.date ≤ b.date)
      else optBoolLt a.interactive b.interactive
    else optNameLt a.companyName b.companyName
  else optNameLt a.personName b.personName

/-- `save_dataset`: dispatch on the dataset type, raising `ValueError` on
an unknown type; the saved table is the input sorted by the dataset sort
key (file writing is abstracted away, and handing a payload of the wrong
schema to the typed saver is outside the model). -/
def saveDataset (p : DatasetPayload) (datasetType : String) : Except String DatasetPayload :=
  if datasetType = "billionaires" then
    match p with
    | DatasetPayload.bill rows => Except.ok (DatasetPayload.bill (sortB nameDateLe rows))
    | _ => Except.error "SchemaMismatch"
  else if datasetType = "assets" then
    match p with
    | DatasetPayload.assets rows => Except.ok (DatasetPayload.assets (sortB assetSaveLe rows))
    | _ => Except.error "SchemaMismatch"
  else Except.error ("Unknown dataset type: " ++ datasetType)

/-- `repair_deduplication`: on an unknown dataset type both the prepare
step and the dispatch print a warning and return the input unchanged —
they do not raise. -/
def repairDeduplicationDispatch (p : DatasetPayload) (datasetType : String) : DatasetPayload :=
  if datasetType = "billionaires" then
    match p with
    | DatasetPayload.bill rows => DatasetPayload.bill (repairDeduplicationBillionaires rows)
    | other => other
  else if datasetType = "assets" then
    match p with
    | DatasetPayload.assets rows => DatasetPayload.assets (repairDeduplicationAssets rows)
    | other => other
  else p

/-! ## Ingestion update step (src/get_data.py, update_dataset) -/

/-- `update_dataset`: drop the rows of the existing table dated with the
current run date (the membership test in the source is equivalent to an
unconditional filter), append the new batch, and sort.  Generic over the
row type via a date accessor and the dataset sort comparator. -/
def updateDataset (dateOf : β → Nat) (sortLe : β → β → Bool)
    (newRows existingRows : List β) (currentDate : Nat) : List β :=
  sortB sortLe ((existingRows.filter fun r => decide (¬dateOf r = currentDate)) ++ newRows)

def updateDatasetBillionaires (newRows existingRows : List BillRow) (currentDate : Nat) :
    List BillRow :=
  updateDataset (fun r => r.date) nameDateLe newRows existingRows currentDate

/-! ## Lemmas on the string primitives -/

theorem dropWhile_idem (p : α → Bool) (l : List α) :
    (l.dropWhile p).dropWhile p = l.dropWhile p := by
  induction l with
  | nil => simp
  | cons a l ih =>
    by_cases h : p a <;> simp [List.dropWhile_cons, h, ih]

theorem dropWhile_head_not (p : α → Bool) (l : List α) (a : α) (t : List α)
    (h : l.dropWhile p = a :: t) : p a = false := by
  induction l with
  | nil => simp at h
  | cons b l ih =>
    by_cases hb : p b
    · rw [List.dropWhile_cons, if_pos hb] at h
      exact ih h
    · rw [List.dropWhile_cons, if_neg hb] at h
      cases h
      exact Bool.not_eq_true _ |>.mp hb

theorem dropWhile_decomp (p : α → Bool) (l : List α) :
    ∃ t, l = t ++ l.dropWhile p := by
  induction l with
  | nil => exact ⟨[], rfl⟩
  | cons a l ih =>
    by_cases h : p a
    · obtain ⟨t, ht⟩ := ih
      refine ⟨a :: t, ?_⟩
      rw [List.dropWhile_cons, if_pos h]
      simpa using ht
    · exact ⟨[], by simp [List.dropWhile_cons, h]⟩

theorem length_dropWhile_le (p : α → Bool) (l : List α) :
    (l.dropWhile p).length ≤ l.length := by
  induction l with
  | nil => simp
  | cons a l ih =>
    by_cases h : p a
    · rw [List.dropWhile_cons, if_pos h]
      exact Nat.le_succ_of_le ih
    · rw [List.dropWhile_cons, if_neg h]

theorem dropWhile_reverse_dropWhile (p : α → Bool) (l : List α)
    (h : l.dropWhile p = l) :
    ((l.reverse.dropWhile p).reverse).dropWhile p = (l.reverse.dropWhile p).reverse := by
  obtain ⟨t, ht⟩ := dropWhile_decomp p l.reverse
  have hpre : l = (l.reverse.dropWhile p).reverse ++ t.reverse := by
    have := congrArg List.reverse ht
    rw [List.reverse_reverse, List.reverse_append] at this
    exact this
  cases hr : (l.reverse.dropWhile p).reverse with
  | nil => simp
  | cons a r =>
    have hl : l = a :: (r ++ t.reverse) := by rw [hpre, hr]; simp
    have hpa : p a = false := by
      by_contra hpa
      have hpa : p a = true := by simpa using hpa
      rw [hl, List.dropWhile_cons, if_pos hpa] at h
      have hlen := length_dropWhile_le p (r ++ t.reverse)
      rw [h] at hlen
      simp at hlen
    rw [List.dropWhile_cons, if_neg (by simp [hpa])]

theorem pyStripList_idem (l : List Char) :
    pyStripList (pyStripList l) = pyStripList l := by
  unfold pyStripList
  have hm : (l.dropWhile pyIsSpace).dropWhile pyIsSpace = l.dropWhile pyIsSpace :=
    dropWhile_idem _ _
  have hd := dropWhile_reverse_dropWhile pyIsSpace (l.dropWhile pyIsSpace) hm
  rw [hd, List.reverse_reverse, dropWhile_idem]

theorem stringDataInj (x y : String) (h : x.data = y.data) : x = y := by
  cases x; cases y; simp_all

theorem pyStrip_data (s : String) : (pyStrip s).data = pyStripList s.data := rfl

theorem pyStrip_idem (s : String) : pyStrip (pyStrip s) = pyStrip s := by
  apply stringDataInj
  rw [pyStrip_data, pyStrip_data, pyStripList_idem]

theorem cleanValue_ok (x : Option String) (s : String) (h : cleanValue x = some s) :
    s ≠ "" ∧ pyStrip s = s ∧ isUnknownSentinel s = false := by
  cases x with
  | none => simp [cleanValue] at h
  | some v =>
    simp only [cleanValue] at h
    by_cases h1 : pyStrip v = ""
    · rw [if_pos h1] at h
      simp at h
    · rw [if_neg h1] at h
      by_cases h2 : isUnknownSentinel (pyStrip v) = true
      · rw [if_pos h2] at h
        simp at h
      · rw [if_neg h2] at h
        cases h
        exact ⟨h1, pyStrip_idem v, Bool.not_eq_true _ |>.mp h2⟩

theorem cleanValue_idem (x : Option String) : cleanValue (cleanValue x) = cleanValue x := by
  cases hx : cleanValue x with
  | none => rfl
  | some s =>
    obtain ⟨h1, h2, h3⟩ := cleanValue_ok x s hx
    simp [cleanValue, h2, h1, h3]

theorem emptyToNone_ne (x : Option String) (s : String) (h : emptyToNone x = some s) :
    s ≠ "" := by
  cases x with
  | none => simp [emptyToNone] at h
  | some v =>
    simp only [emptyToNone] at h
    by_cases hv : v = ""
    · simp [hv] at h
    · rw [if_neg hv] at h
      cases h
      exact hv

theorem emptyToNone_eq_self (x : Option String) (h : ∀ s, x = some s → s ≠ "") :
    emptyToNone x = x := by
  cases x with
  | none => rfl
  | some v => simp [emptyToNone, h v rfl]

/-! ## Lemmas on the character-list order -/

theorem charLt_trans (a b c : Char) (h1 : charLt a b = true) (h2 : charLt b c = true) :
    charLt a c = true := by
  simp only [charLt, decide_eq_true_eq] at *
  exact lt_trans h1 h2

theorem charLt_asymm (a b : Char) (h1 : charLt a b = true) (h2 : charLt b a = true) : False := by
  simp only [charLt, decide_eq_true_eq] at *
  exact absurd h2 (lt_asymm h1)

theorem charLt_total_ne (a b : Char) (h : a ≠ b) : charLt a b = true ∨ charLt b a = true := by
  simp only [charLt, decide_eq_true_eq]
  exact lt_or_gt_of_ne h

theorem charListLt_trans (l m n : List Char) (h1 : charListLt l m = true)
    (h2 : charListLt m n = true) : charListLt l n = true := by
  induction l generalizing m n with
  | nil =>
    cases m with
    | nil => simp [charListLt] at h1
    | cons b bs =>
      cases n with
      | nil => simp [charListLt] at h2
      | cons c cs => simp [charListLt]
  | cons a as ih =>
    cases m with
    | nil => simp [charListLt] at h1
    | cons b bs =>
      cases n with
      | nil => simp [charListLt] at h2
      | cons c cs =>
        simp only [charListLt] at h1 h2 ⊢
        by_cases hab : a = b
        · subst hab
          rw [if_pos rfl] at h1
          by_cases hbc : a = c
          · subst hbc
            rw [if_pos rfl] at h2 ⊢
            exact ih bs cs h1 h2
          · rw [if_neg hbc] at h2 ⊢
            exact h2
        · rw [if_neg hab] at h1
          by_cases hbc : b = c
          · subst hbc
            rw [if_neg hab]
            exact h1
          · rw [if_neg hbc] at h2
            by_cases hac : a = c
            · subst hac
              exact absurd h2 (fun hh => charLt_asymm a b h1 hh)
            · rw [if_neg hac]
              exact charLt_trans a b c h1 h2

theorem charListLt_asymm (l m : List Char) (h1 : charListLt l m = true)
    (h2 : charListLt m l = true) : False := by
  induction l generalizing m with
  | nil =>
    cases m with
    | nil => simp [charListLt] at h1
    | cons b bs => simp [charListLt] at h2
  | cons a as ih =>
    cases m with
    | nil => simp [charListLt] at h1
    | cons b bs =>
      simp only [charListLt] at h1 h2
      by_cases hab : a = b
      · subst hab
        rw [if_pos rfl] at h1 h2
        exact ih bs h1 h2
      · rw [if_neg hab] at h1
        rw [if_neg (Ne.symm hab)] at h2
        exact charLt_asymm a b h1 h2

theorem charListLt_total_ne (l m : List Char) (h : l ≠ m) :
    charListLt l m = true ∨ charListLt m l = true := by
  induction l generalizing m with
  | nil =>
    cases m with
    | nil => exact absurd rfl h
    | cons b bs => left; simp [charListLt]
  | cons a as ih =>
    cases m with
    | nil => right; simp [charListLt]
    | cons b bs =>
      by_cases hab : a = b
      · subst hab
        have hne : as ≠ bs := by
          intro hh
          exact h (by rw [hh])
        rcases ih bs hne with hl | hr
        · left; simp [charListLt, hl]
        · right; simp [charListLt, hr]
      · rcases charLt_total_ne a b hab with hl | hr
        · left; simp [charListLt, if_neg hab, hl]
        · right; simp [charListLt, if_neg (Ne.symm hab), hr]

/-! ## Lemmas on the sort wrapper -/

theorem sortB_perm (le : β → β → Bool) (l : List β) : (sortB le l).Perm l :=
  List.perm_insertionSort _ l

theorem sortB_mem (le : β → β → Bool) (l : List β) (a : β) : a ∈ sortB le l ↔ a ∈ l :=
  List.mem_insertionSort _

theorem sortB_length (le : β → β → Bool) (l : List β) : (sortB le l).length = l.length :=
  List.length_insertionSort _ l

theorem sortB_sorted (le : β → β → Bool)
    (htr : ∀ a b c, le a b = true → le b c = true → le a c = true)
    (htot : ∀ a b, le a b = true ∨ le b a = true) (l : List β) :
    (sortB le l).Pairwise (fun a b => le a b = true) :=
  @List.sorted_insertionSort β _ _ ⟨htot⟩ ⟨htr⟩ l

theorem sortB_eq_of_sorted (le : β → β → Bool) (l : List β)
    (h : l.Pairwise (fun a b => le a b = true)) : sortB le l = l :=
  List.Sorted.insertionSort_eq h

/-! ## Lemmas on the keyed comparators -/

theorem keyedLe_total (key : β → List Char) (m : β → Int) (a b : β) :
    keyedLe key m a b = true ∨ keyedLe key m b a = true := by
  unfold keyedLe
  by_cases h : key a = key b
  · rw [if_pos h, if_pos h.symm]
    rcases le_total (m b) (m a) with hle | hle
    · left; simpa using hle
    · right; simpa using hle
  · rw [if_neg h, if_neg (Ne.symm h)]
    exact charListLt_total_ne _ _ h

theorem keyedLe_trans (key : β → List Char) (m : β → Int) (a b c : β)
    (h1 : keyedLe key m a b = true) (h2 : keyedLe key m b c = true) :
    keyedLe key m a c = true := by
  unfold keyedLe at *
  by_cases hab : key a = key b
  · rw [if_pos hab] at h1
    by_cases hbc : key b = key c
    · rw [if_pos hbc] at h2
      rw [if_pos (hab.trans hbc)]
      simp only [decide_eq_true_eq] at *
      exact le_trans h2 h1
    · rw [if_neg hbc] at h2
      rw [if_neg (hab ▸ hbc), hab]
      exact h2
  · rw [if_neg hab] at h1
    by_cases hbc : key b = key c
    · rw [if_neg (fun hh => hab (hh.trans hbc.symm)), ← hbc]
      exact h1
    · rw [if_neg hbc] at h2
      by_cases hac : key a = key c
      · exact absurd h2 (fun hh => charListLt_asymm _ _ (hac ▸ h1) hh)
      · rw [if_neg hac]
        exact charListLt_trans _ _ _ h1 h2

/-! ## Lemmas on the (personName, date) comparator -/

theorem optNameLt_trans (a b c : Option String) (h1 : optNameLt a b = true)
    (h2 : optNameLt b c = true) : optNameLt a c = true := by
  cases a <;> cases b <;> cases c <;> simp_all [optNameLt]
  exact charListLt_trans _ _ _ h1 h2

theorem optNameLt_asymm (a b : Option String) (h1 : optNameLt a b = true)
    (h2 : optNameLt b a = true) : False := by
  cases a <;> cases b <;> simp_all [optNameLt]
  exact charListLt_asymm _ _ h1 h2

theorem optNameLt_total_ne (a b : Option String) (h : a ≠ b) :
    optNameLt a b = true ∨ optNameLt b a = true := by
  cases a with
  | none =>
    cases b with
    | none => exact absurd rfl h
    | some y => left; simp [optNameLt]
  | some x =>
    cases b with
    | none => right; simp [optNameLt]
    | some y =>
      have hxy : x ≠ y := by
        intro hh
        exact h (by rw [hh])
      have hdata : x.data ≠ y.data := fun hd => hxy (stringDataInj x y hd)
      exact charListLt_total_ne _ _ hdata

theorem nameDateLe_total (a b : BillRow) :
    nameDateLe a b = true ∨ nameDateLe b a = true := by
  unfold nameDateLe
  by_cases h : a.personName = b.personName
  · rw [if_pos h, if_pos h.symm]
    rcases Nat.le_total a.date b.date with hle | hle
    · left; simpa using hle
    · right; simpa using hle
  · rw [if_neg h, if_neg (Ne.symm h)]
    exact optNameLt_total_ne _ _ h

theorem nameDateLe_trans (a b c : BillRow) (h1 : nameDateLe a b = true)
    (h2 : nameDateLe b c = true) : nameDateLe a c = true := by
  unfold nameDateLe at *
  by_cases hab : a.personName = b.personName
  · rw [if_pos hab] at h1
    by_cases hbc : b.personName = c.personName
    · rw [if_pos hbc] at h2
      rw [if_pos (hab.trans hbc)]
      simp only [decide_eq_true_eq] at *
      exact le_trans h1 h2
    · rw [if_neg hbc] at h2
      rw [if_neg (hab ▸ hbc), hab]
      exact h2
  · rw [if_neg hab] at h1
    by_cases hbc : b.personName = c.personName
    · rw [if_neg (fun hh => hab (hh.trans hbc.symm)), ← hbc]
      exact h1
    · rw [if_neg hbc] at h2
      by_cases hac : a.personName = c.personName
      · exact absurd h2 (fun hh => optNameLt_asymm _ _ (hac ▸ h1) hh)
      · rw [if_neg hac]
        exact optNameLt_trans _ _ _ h1 h2

theorem dateDescLe_total (a b : BillRow) :
    dateDescLe a b = true ∨ dateDescLe b a = true := by
  unfold dateDescLe
  rcases Nat.le_total b.date a.date with h | h
  · left; simpa using h
  · right; simpa using h

theorem dateDescLe_trans (a b c : BillRow) (h1 : dateDescLe a b = true)
    (h2 : dateDescLe b c = true) : dateDescLe a c = true := by
  simp only [dateDescLe, decide_eq_true_eq] at *
  exact le_trans h2 h1

/-! ## Lemmas on uniqueByKey -/

theorem uniqueByKeyGo_sublist (key : β → κ) [DecidableEq κ] (seen : List κ) (l : List β) :
    (uniqueByKeyGo key seen l).Sublist l := by
  induction l generalizing seen with
  | nil => simp [uniqueByKeyGo]
  | cons a rest ih =>
    by_cases h : key a ∈ seen
    · rw [uniqueByKeyGo, if_pos h]
      exact (ih seen).cons a
    · rw [uniqueByKeyGo, if_neg h]
      exact (ih (key a :: seen)).cons₂ a

theorem uniqueByKeyGo_subset (key : β → κ) [DecidableEq κ] (seen : List κ) (l : List β)
    (r : β) (h : r ∈ uniqueByKeyGo key seen l) : r ∈ l :=
  (uniqueByKeyGo_sublist key seen l).subset h

theorem uniqueByKeyGo_notmem_seen (key : β → κ) [DecidableEq κ] (seen : List κ)
    (l : List β) (r : β) (h : r ∈ uniqueByKeyGo key seen l) : key r ∉ seen := by
  induction l generalizing seen with
  | nil => simp [uniqueByKeyGo] at h
  | cons a rest ih =>
    by_cases ha : key a ∈ seen
    · rw [uniqueByKeyGo, if_pos ha] at h
      exact ih seen h
    · rw [uniqueByKeyGo, if_neg ha] at h
      rcases List.mem_cons.mp h with h | h
      · subst h; exact ha
      · intro hmem
        exact ih (key a :: seen) h (List.mem_cons_of_mem _ hmem)

theorem uniqueByKeyGo_pairwise (key : β → κ) [DecidableEq κ] (seen : List κ) (l : List β) :
    (uniqueByKeyGo key seen l).Pairwise (fun a b => key a ≠ key b) := by
  induction l generalizing seen with
  | nil => simp [uniqueByKeyGo]
  | cons a rest ih =>
    by_cases ha : key a ∈ seen
    · rw [uniqueByKeyGo, if_pos ha]
      exact ih seen
    · rw [uniqueByKeyGo, if_neg ha]
      refine List.Pairwise.cons ?_ (ih (key a :: seen))
      intro b hb
      have := uniqueByKeyGo_notmem_seen key (key a :: seen) rest b hb
      intro hh
      exact this (by rw [← hh]; exact List.mem_cons_self _ _)

theorem uniqueByKeyGo_eq_self (key : β → κ) [DecidableEq κ] (seen : List κ) (l : List β)
    (hseen : ∀ r ∈ l, key r ∉ seen) (hpw : l.Pairwise (fun a b => key a ≠ key b)) :
    uniqueByKeyGo key seen l = l := by
  induction l generalizing seen with
  | nil => simp [uniqueByKeyGo]
  | cons a rest ih =>
    rw [uniqueByKeyGo, if_neg (hseen a (List.mem_cons_self _ _))]
    congr 1
    rcases List.pairwise_cons.mp hpw with ⟨hhead, htail⟩
    refine ih (key a :: seen) ?_ htail
    intro r hr
    intro hmem
    rcases List.mem_cons.mp hmem with hh | hh
    · exact hhead r hr hh.symm
    · exact hseen r (List.mem_cons_of_mem _ hr) hh

theorem uniqueByKeyGo_first (key : β → κ) [DecidableEq κ] (seen : List κ) (l : List β)
    (r : β) (h : r ∈ uniqueByKeyGo key seen l) :
    ∃ l₁ l₂, l = l₁ ++ r :: l₂ ∧ ∀ b ∈ l₁, key b ≠ key r := by
  induction l generalizing seen with
  | nil => simp [uniqueByKeyGo] at h
  | cons a rest ih =>
    by_cases ha : key a ∈ seen
    · rw [uniqueByKeyGo, if_pos ha] at h
      obtain ⟨l₁, l₂, heq, hne⟩ := ih seen h
      refine ⟨a :: l₁, l₂, by rw [heq]; rfl, ?_⟩
      intro b hb
      rcases List.mem_cons.mp hb with hb | hb
      · subst hb
        intro hh
        exact uniqueByKeyGo_notmem_seen key seen rest r h (hh ▸ ha)
      · exact hne b hb
    · rw [uniqueByKeyGo, if_neg ha] at h
      rcases List.mem_cons.mp h with h | h
      · subst h
        exact ⟨[], rest, rfl, by simp⟩
      · obtain ⟨l₁, l₂, heq, hne⟩ := ih (key a :: seen) h
        refine ⟨a :: l₁, l₂, by rw [heq]; rfl, ?_⟩
        intro b hb
        rcases List.mem_cons.mp hb with hb | hb
        · subst hb
          intro hh
          exact uniqueByKeyGo_notmem_seen key (key b :: seen) rest r h
            (by rw [← hh]; exact List.mem_cons_self _ _)
        · exact hne b hb

theorem uniqueByKeyGo_exists (key : β → κ) [DecidableEq κ] (seen : List κ) (l : List β)
    (s : β) (hs : s ∈ l) (hns : key s ∉ seen) :
    ∃ r ∈ uniqueByKeyGo key seen l, key r = key s := by
  induction l generalizing seen with
  | nil => simp at hs
  | cons a rest ih =>
    by_cases ha : key a ∈ seen
    · rw [uniqueByKeyGo, if_pos ha]
      rcases List.mem_cons.mp hs with hh | hh
      · exact absurd (hh ▸ ha) hns
      · exact ih seen hh hns
    · rw [uniqueByKeyGo, if_neg ha]
      rcases List.mem_cons.mp hs with hh | hh
      · subst hh
        exact ⟨s, List.mem_cons_self _ _, rfl⟩
      · by_cases hks : key s = key a
        · exact ⟨a, List.mem_cons_self _ _, hks.symm⟩
        · obtain ⟨r, hr, hkr⟩ := ih (key a :: seen) hh (by
            intro hmem
            rcases List.mem_cons.mp hmem with h2 | h2
            · exact hks h2
            · exact hns h2)
          exact ⟨r, List.mem_cons_of_mem _ hr, hkr⟩

/-! ## find? and Pairwise helpers -/

theorem find_first_of_pairwise {R : β → β → Prop} {p : β → Bool} {l : List β} {a : β}
    (hpw : l.Pairwise R) (hf : l.find? p = some a) :
    ∀ b ∈ l, p b = true → b = a ∨ R a b := by
  induction l with
  | nil => simp at hf
  | cons h t ih =>
    rcases List.pairwise_cons.mp hpw with ⟨hhead, htail⟩
    intro b hb hpb
    by_cases ph : p h
    · rw [List.find?_cons] at hf
      simp only [ph] at hf
      cases hf
      rcases List.mem_cons.mp hb with hb | hb
      · left; exact hb
      · right; exact hhead b hb
    · rw [List.find?_cons] at hf
      simp only [Bool.not_eq_true] at ph
      simp only [ph] at hf
      rcases List.mem_cons.mp hb with hb | hb
      · subst hb; rw [hpb] at ph; cases ph
      · exact ih htail hf b hb hpb

/-! ## Forall₂ helpers -/

theorem forallTwoMemLeft {R : β → γ → Prop} {l : List β} {m : List γ} {a : β}
    (h : List.Forall₂ R l m) (ha : a ∈ l) : ∃ b ∈ m, R a b := by
  induction h with
  | nil => simp at ha
  | cons hr _ ih =>
    rcases List.mem_cons.mp ha with hh | hh
    · subst hh
      exact ⟨_, List.mem_cons_self _ _, hr⟩
    · obtain ⟨b, hb, hrb⟩ := ih hh
      exact ⟨b, List.mem_cons_of_mem _ hb, hrb⟩

theorem forallTwoMemRight {R : β → γ → Prop} {l : List β} {m : List γ} {b : γ}
    (h : List.Forall₂ R l m) (hb : b ∈ m) : ∃ a ∈ l, R a b := by
  induction h with
  | nil => simp at hb
  | cons hr _ ih =>
    rcases List.mem_cons.mp hb with hh | hh
    · subst hh
      exact ⟨_, List.mem_cons_self _ _, hr⟩
    · obtain ⟨a, ha, hra⟩ := ih hh
      exact ⟨a, List.mem_cons_of_mem _ ha, hra⟩

theorem forallTwoDecompRight {R : β → γ → Prop} {m : List β} {l₁ l₂ : List γ} {x : γ}
    (h : List.Forall₂ R m (l₁ ++ x :: l₂)) :
    ∃ m₁ y m₂, m = m₁ ++ y :: m₂ ∧ List.Forall₂ R m₁ l₁ ∧ R y x ∧ List.Forall₂ R m₂ l₂ := by
  induction l₁ generalizing m with
  | nil =>
    cases h with
    | cons hr ht => exact ⟨[], _, _, rfl, List.Forall₂.nil, hr, ht⟩
  | cons c l₁ ih =>
    cases h with
    | cons hr ht =>
      obtain ⟨m₁, y, m₂, heq, h1, h2, h3⟩ := ih ht
      exact ⟨_ :: m₁, y, m₂, by rw [heq]; rfl, List.Forall₂.cons hr h1, h2, h3⟩

theorem forallTwoComp {R : β → γ → Prop} {S : γ → δ → Prop} {l : List β} {m : List γ}
    {n : List δ} (h1 : List.Forall₂ R l m) (h2 : List.Forall₂ S m n) :
    List.Forall₂ (fun a c => ∃ b, R a b ∧ S b c) l n := by
  induction h1 generalizing n with
  | nil =>
    cases h2
    exact List.Forall₂.nil
  | cons hr _ ih =>
    cases h2 with
    | cons hs ht => exact List.Forall₂.cons ⟨_, hr, hs⟩ (ih ht)

theorem forallTwoPairwise {R : β → γ → Prop} {P : β → β → Prop} {Q : γ → γ → Prop}
    {l : List β} {m : List γ} (h : List.Forall₂ R l m) (hp : l.Pairwise P)
    (himp : ∀ a b a2 b2, R a a2 → R b b2 → P a b → Q a2 b2) : m.Pairwise Q := by
  induction h with
  | nil => exact List.Pairwise.nil
  | cons hr ht ih =>
    rcases List.pairwise_cons.mp hp with ⟨hhead, htail⟩
    refine List.Pairwise.cons ?_ (ih htail)
    intro b2 hb2
    obtain ⟨b, hb, hrb⟩ := forallTwoMemRight ht hb2
    exact himp _ _ _ _ hr hrb (hhead b hb)

theorem forallTwoRefl {R : β → β → Prop} (l : List β) (h : ∀ a ∈ l, R a a) :
    List.Forall₂ R l l := by
  induction l with
  | nil => exact List.Forall₂.nil
  | cons a t ih =>
    exact List.Forall₂.cons (h a (List.mem_cons_self _ _))
      (ih fun b hb => h b (List.mem_cons_of_mem _ hb))

/-! ## Lemmas on the forward/backward fill -/

section FillLemmas

variable {β κ α : Type} [DecidableEq κ]
variable {key : β → κ} {get : β → Option α} {set : β → Option α → β}

theorem fillValue_some {hist : List β} {r : β} {x : α} (h : get r = some x) :
    fillValue key get hist r = some x := by
  simp [fillValue, h]

theorem findPartition_none {hist : List β} {k : κ}
    (hall : ∀ h ∈ hist, key h = k → get h = none) :
    ((hist.filter fun h => decide (key h = k)).find? fun h => (get h).isSome) = none := by
  rw [List.find?_eq_none]
  intro x hx
  rcases List.mem_filter.mp hx with ⟨hmem, hkey⟩
  rw [hall x hmem (of_decide_eq_true hkey)]
  simp

theorem fillValue_none {hist : List β} {r : β} (h : get r = none)
    (hall : ∀ h ∈ hist, key h = key r → get h = none) :
    fillValue key get hist r = none := by
  simp [fillValue, h, findPartition_none hall]

theorem fillValue_of_none {hist : List β} {r : β} (hr : get r = none) :
    fillValue key get hist r =
      ((hist.filter fun h => decide (key h = key r)).find? fun h =>
        (get h).isSome).bind get := by
  simp [fillValue, hr]

theorem fillValue_none_partition {hist : List β} {r : β}
    (h : fillValue key get hist r = none) :
    get r = none ∧ ∀ h ∈ hist, key h = key r → get h = none := by
  cases hr : get r with
  | some x => rw [fillValue_some hr] at h; cases h
  | none =>
    refine ⟨rfl, ?_⟩
    rw [fillValue_of_none hr] at h
    cases hfind : (hist.filter fun h => decide (key h = key r)).find? fun h =>
        (get h).isSome with
    | some h0 =>
      exfalso
      rw [hfind] at h
      have hsome := List.find?_some hfind
      rw [Option.isSome_iff_exists] at hsome
      obtain ⟨z, hz⟩ := hsome
      simp only [Option.some_bind] at h
      rw [hz] at h
      cases h
    | none =>
      rw [List.find?_eq_none] at hfind
      intro b hb hkb
      have hmem : b ∈ hist.filter fun h => decide (key h = key r) :=
        List.mem_filter.mpr ⟨hb, decide_eq_true hkb⟩
      have hb2 := hfind b hmem
      rw [Option.not_isSome_iff_eq_none] at hb2
      exact hb2

theorem fillValue_provenance {hist : List β} {r : β} {v : α}
    (h : fillValue key get hist r = some v) :
    get r = some v ∨ ∃ h0 ∈ hist, key h0 = key r ∧ get h0 = some v := by
  cases hr : get r with
  | some x =>
    rw [fillValue_some hr] at h
    injection h with h
    subst h
    left; rfl
  | none =>
    rw [fillValue_of_none hr] at h
    cases hfind : (hist.filter fun h => decide (key h = key r)).find? fun h =>
        (get h).isSome with
    | none => rw [hfind] at h; cases h
    | some h0 =>
      rw [hfind] at h
      simp only [Option.some_bind] at h
      right
      rcases List.mem_filter.mp (List.mem_of_find?_eq_some hfind) with ⟨hmem, hkey⟩
      exact ⟨h0, hmem, of_decide_eq_true hkey, h⟩

theorem ffillGo_length (hist : List β) (rows : List β) :
    (ffillGo key get set hist rows).length = rows.length := by
  induction rows generalizing hist with
  | nil => rfl
  | cons r rest ih => simp [ffillGo, ih]

theorem ffillGo_forall2 (hg : ∀ r v, get (set r v) = v) (hist : List β) (rows : List β) :
    List.Forall₂ (fun r r2 => (∃ v, r2 = set r v) ∧ ((get r).isSome → get r2 = get r))
      rows (ffillGo key get set hist rows) := by
  induction rows generalizing hist with
  | nil => exact List.Forall₂.nil
  | cons r rest ih =>
    refine List.Forall₂.cons ⟨⟨_, rfl⟩, ?_⟩ (ih _)
    intro hsome
    rw [hg]
    cases hx : get r with
    | some x => rw [fillValue_some hx]
    | none => rw [hx] at hsome; cases hsome

theorem ffillGo_none_head (hk : ∀ r v, key (set r v) = key r)
    (hg : ∀ r v, get (set r v) = v) (rows : List β) (hist : List β)
    (l₁ : List β) (a : β) (l₂ : List β)
    (heq : ffillGo key get set hist rows = l₁ ++ a :: l₂) (ha : get a = none) :
    (∀ b ∈ l₁, key b = key a → get b = none) ∧
      (∀ h ∈ hist, key h = key a → get h = none) := by
  induction rows generalizing hist l₁ with
  | nil =>
    exfalso
    cases l₁ <;> simp [ffillGo] at heq
  | cons r rest ih =>
    rw [ffillGo] at heq
    cases l₁ with
    | nil =>
      rw [List.nil_append] at heq
      injection heq with h1 h2
      subst h1
      refine ⟨by simp, ?_⟩
      rw [hg] at ha
      obtain ⟨hr, hall⟩ := fillValue_none_partition ha
      intro h hmem hkeyh
      have hkr : key (set r (fillValue key get hist r)) = key r := hk _ _
      exact hall h hmem (hkeyh.trans hkr)
    | cons b l₁ =>
      rw [List.cons_append] at heq
      injection heq with h1 h2
      subst h1
      obtain ⟨IH1, IH2⟩ := ih (r :: hist) l₁ h2
      refine ⟨?_, ?_⟩
      · intro b2 hb2 hkb2
        rcases List.mem_cons.mp hb2 with hb2 | hb2
        · subst hb2
          rw [hk] at hkb2
          rw [hg]
          have hrnone : get r = none := IH2 r (List.mem_cons_self _ _) hkb2
          refine fillValue_none hrnone ?_
          intro h hmem hkeyh
          exact IH2 h (List.mem_cons_of_mem _ hmem) (hkeyh.trans hkb2)
        · exact IH1 b2 hb2 hkb2
      · intro h hmem hkeyh
        exact IH2 h (List.mem_cons_of_mem _ hmem) hkeyh

theorem ffillGo_provenance (hk : ∀ r v, key (set r v) = key r)
    (hg : ∀ r v, get (set r v) = v) (rows : List β) (hist : List β) (r2 : β) (v : α)
    (hmem : r2 ∈ ffillGo key get set hist rows) (hv : get r2 = some v) :
    (∃ r ∈ rows, key r = key r2 ∧ get r = some v) ∨
      (∃ h ∈ hist, key h = key r2 ∧ get h = some v) := by
  induction rows generalizing hist with
  | nil => simp [ffillGo] at hmem
  | cons r rest ih =>
    rw [ffillGo] at hmem
    rcases List.mem_cons.mp hmem with hh | hh
    · subst hh
      rw [hg] at hv
      have hkr : key (set r (fillValue key get hist r)) = key r := hk _ _
      rcases fillValue_provenance hv with hp | ⟨h0, hm, hkey0, hg0⟩
      · left
        exact ⟨r, List.mem_cons_self _ _, hkr.symm, hp⟩
      · right
        exact ⟨h0, hm, by rw [hkr]; exact hkey0, hg0⟩
    · rcases ih (r :: hist) hh with ⟨r0, hm, hkey0, hg0⟩ | ⟨h0, hm, hkey0, hg0⟩
      · left
        exact ⟨r0, List.mem_cons_of_mem _ hm, hkey0, hg0⟩
      · rcases List.mem_cons.mp hm with hr0 | hr0
        · subst hr0
          left
          exact ⟨h0, List.mem_cons_self _ _, hkey0, hg0⟩
        · right
          exact ⟨h0, hr0, hkey0, hg0⟩

theorem ffillGo_eq_self (hid : ∀ r, set r (get r) = r) (rows : List β) (hist : List β)
    (H : ∀ a b, (a ∈ hist ∨ a ∈ rows) → (b ∈ hist ∨ b ∈ rows) → key a = key b →
      get a = none → get b = none) :
    ffillGo key get set hist rows = rows := by
  induction rows generalizing hist with
  | nil => rfl
  | cons r rest ih =>
    rw [ffillGo]
    have hr : set r (fillValue key get hist r) = r := by
      cases hx : get r with
      | some x =>
        rw [fillValue_some hx, ← hx]
        exact hid r
      | none =>
        rw [fillValue_none hx ?_, ← hx]
        · exact hid r
        · intro h hmem hkeyh
          exact H r h (Or.inr (List.mem_cons_self _ _)) (Or.inl hmem) hkeyh.symm hx
    rw [hr]
    congr 1
    refine ih (r :: hist) ?_
    intro a b ha hb hkey hga
    refine H a b ?_ ?_ hkey hga
    · rcases ha with ha | ha
      · rcases List.mem_cons.mp ha with hh | hh
        · subst hh; exact Or.inr (List.mem_cons_self _ _)
        · exact Or.inl hh
      · exact Or.inr (List.mem_cons_of_mem _ ha)
    · rcases hb with hb | hb
      · rcases List.mem_cons.mp hb with hh | hh
        · subst hh; exact Or.inr (List.mem_cons_self _ _)
        · exact Or.inl hh
      · exact Or.inr (List.mem_cons_of_mem _ hb)

theorem afbf_length (rows : List β) :
    (applyForwardBackwardFill key get set rows).length = rows.length := by
  unfold applyForwardBackwardFill
  rw [List.length_reverse, ffillGo_length, List.length_reverse, ffillGo_length]

theorem afbf_forall2 (hk : ∀ r v, key (set r v) = key r) (hg : ∀ r v, get (set r v) = v)
    (hss : ∀ r u v, set (set r u) v = set r v) (rows : List β) :
    List.Forall₂ (fun r r2 => (∃ v, r2 = set r v) ∧ ((get r).isSome → get r2 = get r))
      rows (applyForwardBackwardFill key get set rows) := by
  have F1 := @ffillGo_forall2 β κ α _ key get set hg [] rows
  have F2 := @ffillGo_forall2 β κ α _ key get set hg []
    (ffillGo key get set [] rows).reverse
  have F2b : List.Forall₂
      (fun r r2 => (∃ v, r2 = set r v) ∧ ((get r).isSome → get r2 = get r))
      (ffillGo key get set [] rows) (applyForwardBackwardFill key get set rows) := by
    rw [← List.forall₂_reverse_iff]
    unfold applyForwardBackwardFill
    rw [List.reverse_reverse]
    exact F2
  have := forallTwoComp F1 F2b
  refine this.imp ?_
  rintro a c ⟨b, ⟨⟨v1, hv1⟩, hp1⟩, ⟨⟨v2, hv2⟩, hp2⟩⟩
  subst hv1
  subst hv2
  refine ⟨⟨v2, hss a v1 v2⟩, ?_⟩
  intro hsome
  have h1 := hp1 hsome
  rw [← h1]
  refine hp2 ?_
  rw [h1]
  exact hsome

theorem afbf_isSome (hk : ∀ r v, key (set r v) = key r) (hg : ∀ r v, get (set r v) = v)
    (rows : List β) (s : β) (hs : s ∈ rows) (hsome : (get s).isSome = true) (r2 : β)
    (hr2 : r2 ∈ applyForwardBackwardFill key get set rows) (hkey : key r2 = key s) :
    (get r2).isSome = true := by
  by_contra hnone
  rw [Option.not_isSome_iff_eq_none] at hnone
  have ho2 : r2 ∈ ffillGo key get set [] (ffillGo key get set [] rows).reverse :=
    List.mem_reverse.mp hr2
  obtain ⟨l₁, l₂, hdec⟩ := List.append_of_mem ho2
  have A1 := (ffillGo_none_head hk hg _ [] l₁ r2 l₂ hdec hnone).1
  have F2 := @ffillGo_forall2 β κ α _ key get set hg []
    (ffillGo key get set [] rows).reverse
  rw [hdec] at F2
  obtain ⟨m₁, x, m₂, hm, hF1, hRx, hF2t⟩ := forallTwoDecompRight F2
  obtain ⟨⟨vx, hvx⟩, hpx⟩ := hRx
  have hkx : key x = key r2 := by rw [hvx, hk]
  have hgx : get x = none := by
    cases hgx : get x with
    | none => rfl
    | some y =>
      have := hpx (by rw [hgx]; rfl)
      rw [hgx] at this
      rw [this] at hnone
      cases hnone
  have F1 := @ffillGo_forall2 β κ α _ key get set hg [] rows
  obtain ⟨s₁, hs₁mem, hRs⟩ := forallTwoMemLeft F1 hs
  obtain ⟨⟨vs, hvs⟩, hps⟩ := hRs
  have hks₁ : key s₁ = key s := by rw [hvs, hk]
  have hgs₁ : get s₁ = get s := hps hsome
  have hgs₁some : (get s₁).isSome = true := by rw [hgs₁]; exact hsome
  have hout1 : ffillGo key get set [] rows = m₂.reverse ++ x :: m₁.reverse := by
    have hcong := congrArg List.reverse hm
    rwa [List.reverse_reverse, List.reverse_append, List.reverse_cons, List.append_assoc,
      List.singleton_append] at hcong
  have hs₁split : s₁ ∈ m₂.reverse ++ x :: m₁.reverse := by rw [← hout1]; exact hs₁mem
  rcases List.mem_append.mp hs₁split with hcase | hcase
  · have B1 := (ffillGo_none_head hk hg rows [] m₂.reverse x m₁.reverse hout1 hgx).1
    have := B1 s₁ hcase (by rw [hks₁, ← hkey, ← hkx])
    rw [this] at hgs₁some
    cases hgs₁some
  · rcases List.mem_cons.mp hcase with hcase | hcase
    · subst hcase
      rw [hgx] at hgs₁some
      cases hgs₁some
    · have hs₁m₁ : s₁ ∈ m₁ := List.mem_reverse.mp hcase
      obtain ⟨b, hbmem, hRb⟩ := forallTwoMemLeft hF1 hs₁m₁
      obtain ⟨⟨vb, hvb⟩, hpb⟩ := hRb
      have hkb : key b = key s₁ := by rw [hvb, hk]
      have hgb : get b = get s₁ := hpb hgs₁some
      have := A1 b hbmem (by rw [hkb, hks₁, ← hkey])
      rw [this] at hgb
      rw [← hgb] at hgs₁some
      cases hgs₁some

theorem afbf_provenance (hk : ∀ r v, key (set r v) = key r) (hg : ∀ r v, get (set r v) = v)
    (rows : List β) (r2 : β) (v : α) (hmem : r2 ∈ applyForwardBackwardFill key get set rows)
    (hv : get r2 = some v) :
    ∃ r ∈ rows, key r = key r2 ∧ get r = some v := by
  have ho2 : r2 ∈ ffillGo key get set [] (ffillGo key get set [] rows).reverse :=
    List.mem_reverse.mp hmem
  rcases ffillGo_provenance hk hg _ [] r2 v ho2 hv with ⟨r1, hm1, hk1, hg1⟩ | ⟨h0, hm0, _, _⟩
  · have hr1 : r1 ∈ ffillGo key get set [] rows := List.mem_reverse.mp hm1
    rcases ffillGo_provenance hk hg rows [] r1 v hr1 hg1 with ⟨r, hm, hkr, hgr⟩ |
      ⟨h0, hm0, _, _⟩
    · exact ⟨r, hm, hkr.trans hk1, hgr⟩
    · simp at hm0
  · simp at hm0

theorem afbf_uniform (hk : ∀ r v, key (set r v) = key r) (hg : ∀ r v, get (set r v) = v)
    (rows : List β) (a b : β) (ha : a ∈ applyForwardBackwardFill key get set rows)
    (hb : b ∈ applyForwardBackwardFill key get set rows) (hkey : key a = key b)
    (hga : get a = none) : get b = none := by
  cases hgb : get b with
  | none => rfl
  | some v =>
    exfalso
    obtain ⟨s, hsmem, hks, hgs⟩ := afbf_provenance hk hg rows b v hb hgb
    have := afbf_isSome hk hg rows s hsmem (by rw [hgs]; rfl) a ha (by rw [hkey, ← hks])
    rw [hga] at this
    cases this

theorem afbf_eq_self (hid : ∀ r, set r (get r) = r) (rows : List β)
    (H : ∀ a b, a ∈ rows → b ∈ rows → key a = key b → get a = none → get b = none) :
    applyForwardBackwardFill key get set rows = rows := by
  unfold applyForwardBackwardFill
  have h1 : ffillGo key get set [] rows = rows := by
    refine ffillGo_eq_self hid rows [] ?_
    intro a b ha hb hkey hga
    rcases ha with ha | ha
    · simp at ha
    · rcases hb with hb | hb
      · simp at hb
      · exact H a b ha hb hkey hga
  rw [h1]
  have h2 : ffillGo key get set [] rows.reverse = rows.reverse := by
    refine ffillGo_eq_self hid rows.reverse [] ?_
    intro a b ha hb hkey hga
    rcases ha with ha | ha
    · simp at ha
    · rcases hb with hb | hb
      · simp at hb
      · exact H a b (List.mem_reverse.mp ha) (List.mem_reverse.mp hb) hkey hga
  rw [h2, List.reverse_reverse]

end FillLemmas

/-! ## BillRow instantiations of the fill lemmas -/

/-- Both the partition key (`personName`) and the date are untouched by a
fill of one slowly-changing field, and the field `g` is also untouched when
the fill writes a different field. -/
def presRel (g : BillRow → Option String) (r r2 : BillRow) : Prop :=
  r2.personName = r.personName ∧ r2.date = r.date ∧ g r2 = g r

theorem presRel_comp (g : BillRow → Option String) {f1 f2 : List BillRow → List BillRow}
    (h1 : ∀ l, List.Forall₂ (presRel g) l (f1 l))
    (h2 : ∀ l, List.Forall₂ (presRel g) l (f2 l)) (l : List BillRow) :
    List.Forall₂ (presRel g) l (f2 (f1 l)) := by
  refine (forallTwoComp (h1 l) (h2 (f1 l))).imp ?_
  rintro a c ⟨b, ⟨h1a, h1b, h1c⟩, ⟨h2a, h2b, h2c⟩⟩
  exact ⟨h2a.trans h1a, h2b.trans h1b, h2c.trans h1c⟩

theorem fillCountry_pres (g : BillRow → Option String)
    (hp : ∀ r v, g (setCountry r v) = g r) (l : List BillRow) :
    List.Forall₂ (presRel g) l (fillCountry l) := by
  unfold fillCountry
  refine (@afbf_forall2 BillRow (Option String) String _ billKey (fun r => r.countryOfCitizenship)
    setCountry (fun _ _ => rfl) (fun _ _ => rfl) (fun _ _ _ => rfl) l).imp ?_
  rintro a b ⟨⟨v, rfl⟩, _⟩
  exact ⟨rfl, rfl, hp a v⟩

theorem fillCity_pres (g : BillRow → Option String)
    (hp : ∀ r v, g (setCity r v) = g r) (l : List BillRow) :
    List.Forall₂ (presRel g) l (fillCity l) := by
  unfold fillCity
  refine (@afbf_forall2 BillRow (Option String) String _ billKey (fun r => r.city)
    setCity (fun _ _ => rfl) (fun _ _ => rfl) (fun _ _ _ => rfl) l).imp ?_
  rintro a b ⟨⟨v, rfl⟩, _⟩
  exact ⟨rfl, rfl, hp a v⟩

theorem fillState_pres (g : BillRow → Option String)
    (hp : ∀ r v, g (setState r v) = g r) (l : List BillRow) :
    List.Forall₂ (presRel g) l (fillState l) := by
  unfold fillState
  refine (@afbf_forall2 BillRow (Option String) String _ billKey (fun r => r.state)
    setState (fun _ _ => rfl) (fun _ _ => rfl) (fun _ _ _ => rfl) l).imp ?_
  rintro a b ⟨⟨v, rfl⟩, _⟩
  exact ⟨rfl, rfl, hp a v⟩

theorem fillSource_pres (g : BillRow → Option String)
    (hp : ∀ r v, g (setSource r v) = g r) (l : List BillRow) :
    List.Forall₂ (presRel g) l (fillSource l) := by
  unfold fillSource
  refine (@afbf_forall2 BillRow (Option String) String _ billKey (fun r => r.source)
    setSource (fun _ _ => rfl) (fun _ _ => rfl) (fun _ _ _ => rfl) l).imp ?_
  rintro a b ⟨⟨v, rfl⟩, _⟩
  exact ⟨rfl, rfl, hp a v⟩

theorem fillIndustries_pres (g : BillRow → Option String)
    (hp : ∀ r v, g (setIndustries r v) = g r) (l : List BillRow) :
    List.Forall₂ (presRel g) l (fillIndustries l) := by
  unfold fillIndustries
  refine (@afbf_forall2 BillRow (Option String) String _ billKey (fun r => r.industries)
    setIndustries (fun _ _ => rfl) (fun _ _ => rfl) (fun _ _ _ => rfl) l).imp ?_
  rintro a b ⟨⟨v, rfl⟩, _⟩
  exact ⟨rfl, rfl, hp a v⟩

theorem presRel_uniform (g : BillRow → Option String) {l l2 : List BillRow}
    (h : List.Forall₂ (presRel g) l l2)
    (hU : ∀ a b, a ∈ l → b ∈ l → a.personName = b.personName → g a = none → g b = none) :
    ∀ a b, a ∈ l2 → b ∈ l2 → a.personName = b.personName → g a = none → g b = none := by
  intro a b ha hb hkey hga
  obtain ⟨a0, ha0, ha0p, _, ha0g⟩ := forallTwoMemRight h ha
  obtain ⟨b0, hb0, hb0p, _, hb0g⟩ := forallTwoMemRight h hb
  rw [hb0g]
  refine hU a0 b0 ha0 hb0 ?_ ?_
  · rw [← ha0p, ← hb0p]; exact hkey
  · rw [← ha0g]; exact hga

theorem nameDateLe_congr (a b a2 b2 : BillRow) (hap : a2.personName = a.personName)
    (had : a2.date = a.date) (hbp : b2.personName = b.personName) (hbd : b2.date = b.date) :
    nameDateLe a2 b2 = nameDateLe a b := by
  unfold nameDateLe
  rw [hap, had, hbp, hbd]

theorem presRel_sorted (g : BillRow → Option String) {l l2 : List BillRow}
    (h : List.Forall₂ (presRel g) l l2)
    (hs : l.Pairwise fun a b => nameDateLe a b = true) :
    l2.Pairwise fun a b => nameDateLe a b = true := by
  refine forallTwoPairwise h hs ?_
  rintro a b a2 b2 ⟨hap, had, _⟩ ⟨hbp, hbd, _⟩ hle
  rw [nameDateLe_congr a b a2 b2 hap had hbp hbd]
  exact hle

theorem mapEqSelf {f : β → β} {l : List β} (h : ∀ a ∈ l, f a = a) : l.map f = l := by
  induction l with
  | nil => rfl
  | cons a t ih =>
    rw [List.map_cons, h a (List.mem_cons_self _ _), ih fun b hb =>
      h b (List.mem_cons_of_mem _ hb)]

/-! ## Pipeline-position lemmas for one slowly-changing field

A fill pipeline is `post ∘ fill_i ∘ pre` where `pre` and `post` are the
fills of the other fields, which preserve `personName`, `date` and field
`i` exactly. -/

theorem pipeline_isSome (gi : BillRow → Option String) (seti : BillRow → Option String → BillRow)
    (pre post : List BillRow → List BillRow)
    (hki : ∀ r v, billKey (seti r v) = billKey r) (hgi : ∀ r v, gi (seti r v) = v)
    (hpre : ∀ l, List.Forall₂ (presRel gi) l (pre l))
    (hpost : ∀ l, List.Forall₂ (presRel gi) l (post l))
    (l : List BillRow) (s : BillRow) (hs : s ∈ l) (hsome : (gi s).isSome = true)
    (r2 : BillRow) (hr2 : r2 ∈ post (applyForwardBackwardFill billKey gi seti (pre l)))
    (hkey : r2.personName = s.personName) : (gi r2).isSome = true := by
  obtain ⟨s1, hs1, hs1p, _, hs1g⟩ := forallTwoMemLeft (hpre l) hs
  obtain ⟨m, hm, hmp, _, hmg⟩ := forallTwoMemRight (hpost _) hr2
  have hsome1 : (gi s1).isSome = true := by rw [hs1g]; exact hsome
  have hkms : billKey m = billKey s1 := by
    show m.personName = s1.personName
    rw [hs1p, ← hmp, hkey]
  have := @afbf_isSome BillRow (Option String) String _ billKey gi seti hki hgi (pre l) s1 hs1 hsome1 m hm hkms
  rw [hmg]
  exact this

theorem pipeline_src (gi : BillRow → Option String) (seti : BillRow → Option String → BillRow)
    (pre post : List BillRow → List BillRow)
    (hki : ∀ r v, billKey (seti r v) = billKey r) (hgi : ∀ r v, gi (seti r v) = v)
    (hpre : ∀ l, List.Forall₂ (presRel gi) l (pre l))
    (hpost : ∀ l, List.Forall₂ (presRel gi) l (post l))
    (l : List BillRow) (r2 : BillRow) (v : String)
    (hr2 : r2 ∈ post (applyForwardBackwardFill billKey gi seti (pre l)))
    (hv : gi r2 = some v) : ∃ r0 ∈ l, gi r0 = some v := by
  obtain ⟨m, hm, _, _, hmg⟩ := forallTwoMemRight (hpost _) hr2
  have hmv : gi m = some v := by rw [← hmg]; exact hv
  obtain ⟨r1, hr1, _, hg1⟩ := @afbf_provenance BillRow (Option String) String _ billKey gi seti hki hgi (pre l) m v hm hmv
  obtain ⟨r0, hr0, _, _, hg0⟩ := forallTwoMemRight (hpre l) hr1
  refine ⟨r0, hr0, ?_⟩
  rw [← hg0]
  exact hg1

theorem pipeline_uniform (gi : BillRow → Option String) (seti : BillRow → Option String → BillRow)
    (pre post : List BillRow → List BillRow)
    (hki : ∀ r v, billKey (seti r v) = billKey r) (hgi : ∀ r v, gi (seti r v) = v)
    (hpost : ∀ l, List.Forall₂ (presRel gi) l (post l)) (l : List BillRow) :
    ∀ a b, a ∈ post (applyForwardBackwardFill billKey gi seti (pre l)) →
      b ∈ post (applyForwardBackwardFill billKey gi seti (pre l)) →
      a.personName = b.personName → gi a = none → gi b = none := by
  refine presRel_uniform gi (hpost _) ?_
  intro a b ha hb hkey hga
  exact @afbf_uniform BillRow (Option String) String _ billKey gi seti hki hgi (pre l) a b ha hb hkey hga

/-! ## Per-field second-order workers -/

theorem fillCountry_length (l : List BillRow) : (fillCountry l).length = l.length :=
  afbf_length l

theorem secondOrder_complete_Country (rows : List BillRow) (s : BillRow) (hs : s ∈ rows)
    (hsome : (emptyToNone s.countryOfCitizenship).isSome = true) (r2 : BillRow)
    (hr2 : r2 ∈ repairSecondOrderFields rows) (hkey : r2.personName = s.personName) :
    (r2.countryOfCitizenship).isSome = true := by
  have hs0 : cleanSecondOrderRow s ∈ sortB nameDateLe (rows.map cleanSecondOrderRow) :=
    (sortB_mem _ _ _).mpr (List.mem_map_of_mem _ hs)
  exact pipeline_isSome (fun r => r.countryOfCitizenship) setCountry (fun l => l)
    (fun l => fillIndustries (fillSource (fillState (fillCity l))))
    (fun _ _ => rfl) (fun _ _ => rfl) (fun l => forallTwoRefl l fun a _ => ⟨rfl, rfl, rfl⟩)
    (presRel_comp _ (presRel_comp _ (presRel_comp _ (fillCity_pres _ fun _ _ => rfl) (fillState_pres _ fun _ _ => rfl)) (fillSource_pres _ fun _ _ => rfl)) (fillIndustries_pres _ fun _ _ => rfl))
    (sortB nameDateLe (rows.map cleanSecondOrderRow)) (cleanSecondOrderRow s) hs0 hsome r2 hr2
    hkey

theorem secondOrder_src_Country (rows : List BillRow) (r2 : BillRow) (v : String)
    (hr2 : r2 ∈ repairSecondOrderFields rows) (hv : r2.countryOfCitizenship = some v) :
    ∃ r0 ∈ rows, emptyToNone r0.countryOfCitizenship = some v := by
  obtain ⟨m, hm, hgm⟩ := pipeline_src (fun r => r.countryOfCitizenship) setCountry (fun l => l)
    (fun l => fillIndustries (fillSource (fillState (fillCity l))))
    (fun _ _ => rfl) (fun _ _ => rfl) (fun l => forallTwoRefl l fun a _ => ⟨rfl, rfl, rfl⟩)
    (presRel_comp _ (presRel_comp _ (presRel_comp _ (fillCity_pres _ fun _ _ => rfl) (fillState_pres _ fun _ _ => rfl)) (fillSource_pres _ fun _ _ => rfl)) (fillIndustries_pres _ fun _ _ => rfl))
    (sortB nameDateLe (rows.map cleanSecondOrderRow)) r2 v hr2 hv
  have hm2 : m ∈ rows.map cleanSecondOrderRow := (sortB_mem _ _ _).mp hm
  obtain ⟨r0, hr0, hr0e⟩ := List.mem_map.mp hm2
  refine ⟨r0, hr0, ?_⟩
  have hconv : emptyToNone r0.countryOfCitizenship = m.countryOfCitizenship := by rw [← hr0e]; rfl
  rw [hconv]
  exact hgm

theorem secondOrder_uniform_Country (rows : List BillRow) :
    ∀ a b, a ∈ repairSecondOrderFields rows → b ∈ repairSecondOrderFields rows →
      a.personName = b.personName → a.countryOfCitizenship = none → b.countryOfCitizenship = none :=
  pipeline_uniform (fun r => r.countryOfCitizenship) setCountry (fun l => l)
    (fun l => fillIndustries (fillSource (fillState (fillCity l))))
    (fun _ _ => rfl) (fun _ _ => rfl)
    (presRel_comp _ (presRel_comp _ (presRel_comp _ (fillCity_pres _ fun _ _ => rfl) (fillState_pres _ fun _ _ => rfl)) (fillSource_pres _ fun _ _ => rfl)) (fillIndustries_pres _ fun _ _ => rfl))
    (sortB nameDateLe (rows.map cleanSecondOrderRow))

theorem secondOrder_fillCountry_id (rows : List BillRow) :
    fillCountry (repairSecondOrderFields rows) = repairSecondOrderFields rows := by
  unfold fillCountry
  exact afbf_eq_self (fun r => rfl) _ (fun a b ha hb hk hga =>
    secondOrder_uniform_Country rows a b ha hb hk hga)

theorem fillCity_length (l : List BillRow) : (fillCity l).length = l.length :=
  afbf_length l

theorem secondOrder_complete_City (rows : List BillRow) (s : BillRow) (hs : s ∈ rows)
    (hsome : (emptyToNone s.city).isSome = true) (r2 : BillRow)
    (hr2 : r2 ∈ repairSecondOrderFields rows) (hkey : r2.personName = s.personName) :
    (r2.city).isSome = true := by
  have hs0 : cleanSecondOrderRow s ∈ sortB nameDateLe (rows.map cleanSecondOrderRow) :=
    (sortB_mem _ _ _).mpr (List.mem_map_of_mem _ hs)
  exact pipeline_isSome (fun r => r.city) setCity (fun l => fillCountry l)
    (fun l => fillIndustries (fillSource (fillState l)))
    (fun _ _ => rfl) (fun _ _ => rfl) (fillCountry_pres _ fun _ _ => rfl)
    (presRel_comp _ (presRel_comp _ (fillState_pres _ fun _ _ => rfl) (fillSource_pres _ fun _ _ => rfl)) (fillIndustries_pres _ fun _ _ => rfl))
    (sortB nameDateLe (rows.map cleanSecondOrderRow)) (cleanSecondOrderRow s) hs0 hsome r2 hr2
    hkey

theorem secondOrder_src_City (rows : List BillRow) (r2 : BillRow) (v : String)
    (hr2 : r2 ∈ repairSecondOrderFields rows) (hv : r2.city = some v) :
    ∃ r0 ∈ rows, emptyToNone r0.city = some v := by
  obtain ⟨m, hm, hgm⟩ := pipeline_src (fun r => r.city) setCity (fun l => fillCountry l)
    (fun l => fillIndustries (fillSource (fillState l)))
    (fun _ _ => rfl) (fun _ _ => rfl) (fillCountry_pres _ fun _ _ => rfl)
    (presRel_comp _ (presRel_comp _ (fillState_pres _ fun _ _ => rfl) (fillSource_pres _ fun _ _ => rfl)) (fillIndustries_pres _ fun _ _ => rfl))
    (sortB nameDateLe (rows.map cleanSecondOrderRow)) r2 v hr2 hv
  have hm2 : m ∈ rows.map cleanSecondOrderRow := (sortB_mem _ _ _).mp hm
  obtain ⟨r0, hr0, hr0e⟩ := List.mem_map.mp hm2
  refine ⟨r0, hr0, ?_⟩
  have hconv : emptyToNone r0.city = m.city := by rw [← hr0e]; rfl
  rw [hconv]
  exact hgm

theorem secondOrder_uniform_City (rows : List BillRow) :
    ∀ a b, a ∈ repairSecondOrderFields rows → b ∈ repairSecondOrderFields rows →
      a.personName = b.personName → a.city = none → b.city = none :=
  pipeline_uniform (fun r => r.city) setCity (fun l => fillCountry l)
    (fun l => fillIndustries (fillSource (fillState l)))
    (fun _ _ => rfl) (fun _ _ => rfl)
    (presRel_comp _ (presRel_comp _ (fillState_pres _ fun _ _ => rfl) (fillSource_pres _ fun _ _ => rfl)) (fillIndustries_pres _ fun _ _ => rfl))
    (sortB nameDateLe (rows.map cleanSecondOrderRow))

theorem secondOrder_fillCity_id (rows : List BillRow) :
    fillCity (repairSecondOrderFields rows) = repairSecondOrderFields rows := by
  unfold fillCity
  exact afbf_eq_self (fun r => rfl) _ (fun a b ha hb hk hga =>
    secondOrder_uniform_City rows a b ha hb hk hga)

theorem fillState_length (l : List BillRow) : (fillState l).length = l.length :=
  afbf_length l

theorem secondOrder_complete_State (rows : List BillRow) (s : BillRow) (hs : s ∈ rows)
    (hsome : (emptyToNone s.state).isSome = true) (r2 : BillRow)
    (hr2 : r2 ∈ repairSecondOrderFields rows) (hkey : r2.personName = s.personName) :
    (r2.state).isSome = true := by
  have hs0 : cleanSecondOrderRow s ∈ sortB nameDateLe (rows.map cleanSecondOrderRow) :=
    (sortB_mem _ _ _).mpr (List.mem_map_of_mem _ hs)
  exact pipeline_isSome (fun r => r.state) setState (fun l => fillCity (fillCountry l))
    (fun l => fillIndustries (fillSource l))
    (fun _ _ => rfl) (fun _ _ => rfl) (presRel_comp _ (fillCountry_pres _ fun _ _ => rfl) (fillCity_pres _ fun _ _ => rfl))
    (presRel_comp _ (fillSource_pres _ fun _ _ => rfl) (fillIndustries_pres _ fun _ _ => rfl))
    (sortB nameDateLe (rows.map cleanSecondOrderRow)) (cleanSecondOrderRow s) hs0 hsome r2 hr2
    hkey

theorem secondOrder_src_State (rows : List BillRow) (r2 : BillRow) (v : String)
    (hr2 : r2 ∈ repairSecondOrderFields rows) (hv : r2.state = some v) :
    ∃ r0 ∈ rows, emptyToNone r0.state = some v := by
  obtain ⟨m, hm, hgm⟩ := pipeline_src (fun r => r.state) setState (fun l => fillCity (fillCountry l))
    (fun l => fillIndustries (fillSource l))
    (fun _ _ => rfl) (fun _ _ => rfl) (presRel_comp _ (fillCountry_pres _ fun _ _ => rfl) (fillCity_pres _ fun _ _ => rfl))
    (presRel_comp _ (fillSource_pres _ fun _ _ => rfl) (fillIndustries_pres _ fun _ _ => rfl))
    (sortB nameDateLe (rows.map cleanSecondOrderRow)) r2 v hr2 hv
  have hm2 : m ∈ rows.map cleanSecondOrderRow := (sortB_mem _ _ _).mp hm
  obtain ⟨r0, hr0, hr0e⟩ := List.mem_map.mp hm2
  refine ⟨r0, hr0, ?_⟩
  have hconv : emptyToNone r0.state = m.state := by rw [← hr0e]; rfl
  rw [hconv]
  exact hgm

theorem secondOrder_uniform_State (rows : List BillRow) :
    ∀ a b, a ∈ repairSecondOrderFields rows → b ∈ repairSecondOrderFields rows →
      a.personName = b.personName → a.state = none → b.state = none :=
  pipeline_uniform (fun r => r.state) setState (fun l => fillCity (fillCountry l))
    (fun l => fillIndustries (fillSource l))
    (fun _ _ => rfl) (fun _ _ => rfl)
    (presRel_comp _ (fillSource_pres _ fun _ _ => rfl) (fillIndustries_pres _ fun _ _ => rfl))
    (sortB nameDateLe (rows.map cleanSecondOrderRow))

theorem secondOrder_fillState_id (rows : List BillRow) :
    fillState (repairSecondOrderFields rows) = repairSecondOrderFields rows := by
  unfold fillState
  exact afbf_eq_self (fun r => rfl) _ (fun a b ha hb hk hga =>
    secondOrder_uniform_State rows a b ha hb hk hga)

theorem fillSource_length (l : List BillRow) : (fillSource l).length = l.length :=
  afbf_length l

theorem secondOrder_complete_Source (rows : List BillRow) (s : BillRow) (hs : s ∈ rows)
    (hsome : (emptyToNone s.source).isSome = true) (r2 : BillRow)
    (hr2 : r2 ∈ repairSecondOrderFields rows) (hkey : r2.personName = s.personName) :
    (r2.source).isSome = true := by
  have hs0 : cleanSecondOrderRow s ∈ sortB nameDateLe (rows.map cleanSecondOrderRow) :=
    (sortB_mem _ _ _).mpr (List.mem_map_of_mem _ hs)
  exact pipeline_isSome (fun r => r.source) setSource (fun l => fillState (fillCity (fillCountry l)))
    (fun l => fillIndustries l)
    (fun _ _ => rfl) (fun _ _ => rfl) (presRel_comp _ (presRel_comp _ (fillCountry_pres _ fun _ _ => rfl) (fillCity_pres _ fun _ _ => rfl)) (fillState_pres _ fun _ _ => rfl))
    (fillIndustries_pres _ fun _ _ => rfl)
    (sortB nameDateLe (rows.map cleanSecondOrderRow)) (cleanSecondOrderRow s) hs0 hsome r2 hr2
    hkey

theorem secondOrder_src_Source (rows : List BillRow) (r2 : BillRow) (v : String)
    (hr2 : r2 ∈ repairSecondOrderFields rows) (hv : r2.source = some v) :
    ∃ r0 ∈ rows, emptyToNone r0.source = some v := by
  obtain ⟨m, hm, hgm⟩ := pipeline_src (fun r => r.source) setSource (fun l => fillState (fillCity (fillCountry l)))
    (fun l => fillIndustries l)
    (fun _ _ => rfl) (fun _ _ => rfl) (presRel_comp _ (presRel_comp _ (fillCountry_pres _ fun _ _ => rfl) (fillCity_pres _ fun _ _ => rfl)) (fillState_pres _ fun _ _ => rfl))
    (fillIndustries_pres _ fun _ _ => rfl)
    (sortB nameDateLe (rows.map cleanSecondOrderRow)) r2 v hr2 hv
  have hm2 : m ∈ rows.map cleanSecondOrderRow := (sortB_mem _ _ _).mp hm
  obtain ⟨r0, hr0, hr0e⟩ := List.mem_map.mp hm2
  refine ⟨r0, hr0, ?_⟩
  have hconv : emptyToNone r0.source = m.source := by rw [← hr0e]; rfl
  rw [hconv]
  exact hgm

theorem secondOrder_uniform_Source (rows : List BillRow) :
    ∀ a b, a ∈ repairSecondOrderFields rows → b ∈ repairSecondOrderFields rows →
      a.personName = b.personName → a.source = none → b.source = none :=
  pipeline_uniform (fun r => r.source) setSource (fun l => fillState (fillCity (fillCountry l)))
    (fun l => fillIndustries l)
    (fun _ _ => rfl) (fun _ _ => rfl)
    (fillIndustries_pres _ fun _ _ => rfl)
    (sortB nameDateLe (rows.map cleanSecondOrderRow))

theorem secondOrder_fillSource_id (rows : List BillRow) :
    fillSource (repairSecondOrderFields rows) = repairSecondOrderFields rows := by
  unfold fillSource
  exact afbf_eq_self (fun r => rfl) _ (fun a b ha hb hk hga =>
    secondOrder_uniform_Source rows a b ha hb hk hga)

theorem fillIndustries_length (l : List BillRow) : (fillIndustries l).length = l.length :=
  afbf_length l

theorem secondOrder_complete_Industries (rows : List BillRow) (s : BillRow) (hs : s ∈ rows)
    (hsome : (emptyToNone s.industries).isSome = true) (r2 : BillRow)
    (hr2 : r2 ∈ repairSecondOrderFields rows) (hkey : r2.personName = s.personName) :
    (r2.industries).isSome = true := by
  have hs0 : cleanSecondOrderRow s ∈ sortB nameDateLe (rows.map cleanSecondOrderRow) :=
    (sortB_mem _ _ _).mpr (List.mem_map_of_mem _ hs)
  exact pipeline_isSome (fun r => r.industries) setIndustries (fun l => fillSource (fillState (fillCity (fillCountry l))))
    (fun l => l)
    (fun _ _ => rfl) (fun _ _ => rfl) (presRel_comp _ (presRel_comp _ (presRel_comp _ (fillCountry_pres _ fun _ _ => rfl) (fillCity_pres _ fun _ _ => rfl)) (fillState_pres _ fun _ _ => rfl)) (fillSource_pres _ fun _ _ => rfl))
    (fun l => forallTwoRefl l fun a _ => ⟨rfl, rfl, rfl⟩)
    (sortB nameDateLe (rows.map cleanSecondOrderRow)) (cleanSecondOrderRow s) hs0 hsome r2 hr2
    hkey

theorem secondOrder_src_Industries (rows : List BillRow) (r2 : BillRow) (v : String)
    (hr2 : r2 ∈ repairSecondOrderFields rows) (hv : r2.industries = some v) :
    ∃ r0 ∈ rows, emptyToNone r0.industries = some v := by
  obtain ⟨m, hm, hgm⟩ := pipeline_src (fun r => r.industries) setIndustries (fun l => fillSource (fillState (fillCity (fillCountry l))))
    (fun l => l)
    (fun _ _ => rfl) (fun _ _ => rfl) (presRel_comp _ (presRel_comp _ (presRel_comp _ (fillCountry_pres _ fun _ _ => rfl) (fillCity_pres _ fun _ _ => rfl)) (fillState_pres _ fun _ _ => rfl)) (fillSource_pres _ fun _ _ => rfl))
    (fun l => forallTwoRefl l fun a _ => ⟨rfl, rfl, rfl⟩)
    (sortB nameDateLe (rows.map cleanSecondOrderRow)) r2 v hr2 hv
  have hm2 : m ∈ rows.map cleanSecondOrderRow := (sortB_mem _ _ _).mp hm
  obtain ⟨r0, hr0, hr0e⟩ := List.mem_map.mp hm2
  refine ⟨r0, hr0, ?_⟩
  have hconv : emptyToNone r0.industries = m.industries := by rw [← hr0e]; rfl
  rw [hconv]
  exact hgm

theorem secondOrder_uniform_Industries (rows : List BillRow) :
    ∀ a b, a ∈ repairSecondOrderFields rows → b ∈ repairSecondOrderFields rows →
      a.personName = b.personName → a.industries = none → b.industries = none :=
  pipeline_uniform (fun r => r.industries) setIndustries (fun l => fillSource (fillState (fillCity (fillCountry l))))
    (fun l => l)
    (fun _ _ => rfl) (fun _ _ => rfl)
    (fun l => forallTwoRefl l fun a _ => ⟨rfl, rfl, rfl⟩)
    (sortB nameDateLe (rows.map cleanSecondOrderRow))

theorem secondOrder_fillIndustries_id (rows : List BillRow) :
    fillIndustries (repairSecondOrderFields rows) = repairSecondOrderFields rows := by
  unfold fillIndustries
  exact afbf_eq_self (fun r => rfl) _ (fun a b ha hb hk hga =>
    secondOrder_uniform_Industries rows a b ha hb hk hga)

/-! ## Second-order assembly lemmas -/

theorem repairSecondOrderFields_clean_id (rows : List BillRow) :
    (repairSecondOrderFields rows).map cleanSecondOrderRow = repairSecondOrderFields rows := by
  refine mapEqSelf ?_
  intro r2 hr2
  have e1 : emptyToNone r2.countryOfCitizenship = r2.countryOfCitizenship :=
    emptyToNone_eq_self _ fun v hv => by
      obtain ⟨r0, _, hr0⟩ := secondOrder_src_Country rows r2 v hr2 hv
      exact emptyToNone_ne _ _ hr0
  have e2 : emptyToNone r2.city = r2.city :=
    emptyToNone_eq_self _ fun v hv => by
      obtain ⟨r0, _, hr0⟩ := secondOrder_src_City rows r2 v hr2 hv
      exact emptyToNone_ne _ _ hr0
  have e3 : emptyToNone r2.state = r2.state :=
    emptyToNone_eq_self _ fun v hv => by
      obtain ⟨r0, _, hr0⟩ := secondOrder_src_State rows r2 v hr2 hv
      exact emptyToNone_ne _ _ hr0
  have e4 : emptyToNone r2.source = r2.source :=
    emptyToNone_eq_self _ fun v hv => by
      obtain ⟨r0, _, hr0⟩ := secondOrder_src_Source rows r2 v hr2 hv
      exact emptyToNone_ne _ _ hr0
  have e5 : emptyToNone r2.industries = r2.industries :=
    emptyToNone_eq_self _ fun v hv => by
      obtain ⟨r0, _, hr0⟩ := secondOrder_src_Industries rows r2 v hr2 hv
      exact emptyToNone_ne _ _ hr0
  show cleanSecondOrderRow r2 = r2
  unfold cleanSecondOrderRow
  rw [e1, e2, e3, e4, e5]

theorem repairSecondOrderFields_sorted (rows : List BillRow) :
    (repairSecondOrderFields rows).Pairwise fun a b => nameDateLe a b = true := by
  have hchain := presRel_comp (fun _ => none)
    (presRel_comp _ (presRel_comp _ (presRel_comp _
      (fillCountry_pres _ fun _ _ => rfl) (fillCity_pres _ fun _ _ => rfl))
      (fillState_pres _ fun _ _ => rfl)) (fillSource_pres _ fun _ _ => rfl))
    (fillIndustries_pres _ fun _ _ => rfl)
    (sortB nameDateLe (rows.map cleanSecondOrderRow))
  exact presRel_sorted _ hchain
    (sortB_sorted nameDateLe nameDateLe_trans nameDateLe_total _)

theorem repairSecondOrderFields_idem (rows : List BillRow) :
    repairSecondOrderFields (repairSecondOrderFields rows) = repairSecondOrderFields rows := by
  have hsort : sortB nameDateLe (repairSecondOrderFields rows) = repairSecondOrderFields rows :=
    sortB_eq_of_sorted _ _ (repairSecondOrderFields_sorted rows)
  show fillIndustries (fillSource (fillState (fillCity (fillCountry (sortB nameDateLe
    ((repairSecondOrderFields rows).map cleanSecondOrderRow)))))) =
    repairSecondOrderFields rows
  rw [repairSecondOrderFields_clean_id, hsort, secondOrder_fillCountry_id,
    secondOrder_fillCity_id, secondOrder_fillState_id, secondOrder_fillSource_id,
    secondOrder_fillIndustries_id]

theorem repairSecondOrderFields_length (rows : List BillRow) :
    (repairSecondOrderFields rows).length = rows.length := by
  show (fillIndustries (fillSource (fillState (fillCity (fillCountry (sortB nameDateLe
    (rows.map cleanSecondOrderRow))))))).length = rows.length
  rw [fillIndustries_length, fillSource_length, fillState_length, fillCity_length,
    fillCountry_length, sortB_length, List.length_map]

/-! ## First-order identity lemmas -/

/-- The value a static-identity field carries after the 1st-order repair
for identity key `n`: either no row of the partition has a usable value
and the result is missing, or it is the value of a partition row that is
most recent among the rows with a usable value. -/
def staticOk (rows : List BillRow) (n : String) (get : BillRow → Option α)
    (v : Option α) : Prop :=
  (v = none ∧ ∀ s ∈ rows, s.personName = some n → get s = none) ∨
  (∃ s ∈ rows, s.personName = some n ∧ get s = v ∧ v.isSome = true ∧
    ∀ t ∈ rows, t.personName = some n → (get t).isSome = true → t.date ≤ s.date)

theorem canonicalField_none (get : BillRow → Option α) (l : List BillRow)
    (h : canonicalField get l = none) : ∀ h0 ∈ l, get h0 = none := by
  intro h0 hmem
  unfold canonicalField at h
  cases hf : l.find? (fun r => (get r).isSome) with
  | some a =>
    rw [hf] at h
    simp only [Option.some_bind] at h
    have := List.find?_some hf
    rw [h] at this
    cases this
  | none =>
    rw [List.find?_eq_none] at hf
    have := hf h0 hmem
    rw [Option.not_isSome_iff_eq_none] at this
    exact this

theorem canonicalField_mem (get : BillRow → Option α) (l : List BillRow) (v : α)
    (h : canonicalField get l = some v) : ∃ h0 ∈ l, get h0 = some v := by
  unfold canonicalField at h
  cases hf : l.find? (fun r => (get r).isSome) with
  | none => rw [hf] at h; cases h
  | some h0 =>
    rw [hf] at h
    simp only [Option.some_bind] at h
    exact ⟨h0, List.mem_of_find?_eq_some hf, h⟩

theorem canonicalField_const (get : BillRow → Option α) (l : List BillRow) (c : Option α)
    (hne : l ≠ []) (hall : ∀ h0 ∈ l, get h0 = c) : canonicalField get l = c := by
  cases l with
  | nil => exact absurd rfl hne
  | cons a t =>
    cases hc : c with
    | some x =>
      have hga : get a = some x := by rw [hall a (List.mem_cons_self _ _), hc]
      unfold canonicalField
      rw [List.find?_cons]
      have hsome : (get a).isSome = true := by rw [hga]; rfl
      simp only [hsome]
      simp only [Option.some_bind]
      exact hga
    | none =>
      unfold canonicalField
      rw [List.find?_eq_none.mpr ?_]
      · rfl
      · intro x hx
        rw [hall x hx, hc]
        simp

theorem canonicalField_max (get : BillRow → Option α) (l : List BillRow) (v : α)
    (hpw : l.Pairwise fun a b => dateDescLe a b = true)
    (h : canonicalField get l = some v) :
    ∃ h0 ∈ l, get h0 = some v ∧ ∀ b ∈ l, (get b).isSome = true → b.date ≤ h0.date := by
  unfold canonicalField at h
  cases hf : l.find? (fun r => (get r).isSome) with
  | none => rw [hf] at h; cases h
  | some h0 =>
    rw [hf] at h
    simp only [Option.some_bind] at h
    refine ⟨h0, List.mem_of_find?_eq_some hf, h, ?_⟩
    intro b hb hbsome
    rcases find_first_of_pairwise hpw hf b hb hbsome with hbe | hrel
    · rw [hbe]
    · simp only [dateDescLe, decide_eq_true_eq] at hrel
      exact hrel

theorem identityGroup_mem_intro (rows : List BillRow) (n : String) (s : BillRow)
    (hs : s ∈ rows) (hn : s.personName = some n) :
    cleanIdentityEmptyStrings s ∈ identityGroup rows n := by
  unfold identityGroup
  rw [sortB_mem]
  refine List.mem_filter.mpr ⟨List.mem_map_of_mem _ hs, ?_⟩
  exact decide_eq_true hn

theorem identityGroup_mem_elim (rows : List BillRow) (n : String) (h0 : BillRow)
    (h : h0 ∈ identityGroup rows n) :
    ∃ s ∈ rows, h0 = cleanIdentityEmptyStrings s ∧ s.personName = some n := by
  unfold identityGroup at h
  rw [sortB_mem] at h
  rcases List.mem_filter.mp h with ⟨hmem, hname⟩
  obtain ⟨s, hs, hseq⟩ := List.mem_map.mp hmem
  refine ⟨s, hs, hseq.symm, ?_⟩
  have := of_decide_eq_true hname
  rw [← hseq] at this
  exact this

theorem identityGroup_sorted (rows : List BillRow) (n : String) :
    (identityGroup rows n).Pairwise fun a b => dateDescLe a b = true :=
  sortB_sorted dateDescLe dateDescLe_trans dateDescLe_total _

theorem canonical_staticOk (rows : List BillRow) (n : String)
    (getC getO : BillRow → Option α)
    (hrel : ∀ s, getC (cleanIdentityEmptyStrings s) = getO s) :
    staticOk rows n getO (canonicalField getC (identityGroup rows n)) := by
  cases hval : canonicalField getC (identityGroup rows n) with
  | none =>
    left
    refine ⟨rfl, ?_⟩
    intro s hs hn
    have := canonicalField_none getC _ hval (cleanIdentityEmptyStrings s)
      (identityGroup_mem_intro rows n s hs hn)
    rw [← hrel s]
    exact this
  | some v =>
    right
    obtain ⟨h0, hmem, hv, hmax⟩ :=
      canonicalField_max getC _ v (identityGroup_sorted rows n) hval
    obtain ⟨s, hs, hseq, hsn⟩ := identityGroup_mem_elim rows n h0 hmem
    refine ⟨s, hs, hsn, ?_, rfl, ?_⟩
    · rw [← hrel s, ← hseq]
      exact hv
    · intro t ht htn htsome
      have hmem2 := identityGroup_mem_intro rows n t ht htn
      have hle := hmax (cleanIdentityEmptyStrings t) hmem2 (by rw [hrel t]; exact htsome)
      rw [hseq] at hle
      exact hle

theorem fixIdentityRow_none (rows : List BillRow) (r : BillRow) (h : r.personName = none) :
    fixIdentityRow rows r =
      { cleanIdentityEmptyStrings r with
        lastName := none, birthDate := none, gender := none } := by
  unfold fixIdentityRow
  rw [h]

theorem fixIdentityRow_some (rows : List BillRow) (r : BillRow) (n : String)
    (h : r.personName = some n) :
    fixIdentityRow rows r =
      { cleanIdentityEmptyStrings r with
        lastName := canonicalField (fun x => x.lastName) (identityGroup rows n)
        birthDate := canonicalField (fun x => x.birthDate) (identityGroup rows n)
        gender := canonicalField (fun x => x.gender) (identityGroup rows n) } := by
  unfold fixIdentityRow
  rw [h]

theorem applyIdentityFixes_fields (rows : List BillRow) (s2 : BillRow)
    (hs2 : s2 ∈ applyIdentityFixes rows) :
    (s2.personName = none → s2.lastName = none ∧ s2.birthDate = none ∧ s2.gender = none) ∧
    (∀ n, s2.personName = some n →
      s2.lastName = canonicalField (fun x => x.lastName) (identityGroup rows n) ∧
      s2.birthDate = canonicalField (fun x => x.birthDate) (identityGroup rows n) ∧
      s2.gender = canonicalField (fun x => x.gender) (identityGroup rows n)) := by
  obtain ⟨r, hr, hreq⟩ := List.mem_map.mp hs2
  subst hreq
  cases hrp : r.personName with
  | none =>
    rw [fixIdentityRow_none rows r hrp]
    constructor
    · intro _
      exact ⟨rfl, rfl, rfl⟩
    · intro n hn
      exfalso
      have hcontra : r.personName = some n := hn
      rw [hrp] at hcontra
      cases hcontra
  | some n0 =>
    rw [fixIdentityRow_some rows r n0 hrp]
    constructor
    · intro hnone
      exfalso
      have hcontra : r.personName = none := hnone
      rw [hrp] at hcontra
      cases hcontra
    · intro n hn
      have hnn : (some n0 : Option String) = some n := by
        rw [← hrp]
        exact hn
      injection hnn with hnn
      subst hnn
      exact ⟨rfl, rfl, rfl⟩

theorem applyIdentityFixes_spec (rows : List BillRow) (s2 : BillRow)
    (hs2 : s2 ∈ applyIdentityFixes rows) :
    (s2.personName = none → s2.lastName = none ∧ s2.birthDate = none ∧ s2.gender = none) ∧
    (∀ n, s2.personName = some n →
      staticOk rows n (fun x => emptyToNone x.lastName) s2.lastName ∧
      staticOk rows n (fun x => x.birthDate) s2.birthDate ∧
      staticOk rows n (fun x => emptyToNone x.gender) s2.gender) := by
  obtain ⟨hnone, hsome⟩ := applyIdentityFixes_fields rows s2 hs2
  refine ⟨hnone, ?_⟩
  intro n hn
  obtain ⟨hL, hB, hG⟩ := hsome n hn
  refine ⟨?_, ?_, ?_⟩
  · rw [hL]
    exact canonical_staticOk rows n _ _ fun s => rfl
  · rw [hB]
    exact canonical_staticOk rows n _ _ fun s => rfl
  · rw [hG]
    exact canonical_staticOk rows n _ _ fun s => rfl

theorem canonical_lastName_ne (rows : List BillRow) (n : String) (v : String)
    (h : canonicalField (fun x => x.lastName) (identityGroup rows n) = some v) : v ≠ "" := by
  obtain ⟨h0, hmem, hv⟩ := canonicalField_mem _ _ v h
  obtain ⟨s, _, hseq, _⟩ := identityGroup_mem_elim rows n h0 hmem
  rw [hseq] at hv
  exact emptyToNone_ne s.lastName v hv

theorem canonical_gender_ne (rows : List BillRow) (n : String) (v : String)
    (h : canonicalField (fun x => x.gender) (identityGroup rows n) = some v) : v ≠ "" := by
  obtain ⟨h0, hmem, hv⟩ := canonicalField_mem _ _ v h
  obtain ⟨s, _, hseq, _⟩ := identityGroup_mem_elim rows n h0 hmem
  rw [hseq] at hv
  exact emptyToNone_ne s.gender v hv

theorem cleanIdentity_eq_self (r : BillRow) (hL : ∀ s, r.lastName = some s → s ≠ "")
    (hG : ∀ s, r.gender = some s → s ≠ "") : cleanIdentityEmptyStrings r = r := by
  unfold cleanIdentityEmptyStrings
  rw [emptyToNone_eq_self _ hL, emptyToNone_eq_self _ hG]

theorem setStatic_eq_self (r : BillRow) (cL : Option String) (cB : Option Nat)
    (cG : Option String) (hL : r.lastName = cL) (hB : r.birthDate = cB)
    (hG : r.gender = cG) :
    { r with lastName := cL, birthDate := cB, gender := cG } = r := by
  rw [← hL, ← hB, ← hG]

theorem applyIdentityFixes_idem (rows : List BillRow) :
    applyIdentityFixes (applyIdentityFixes rows) = applyIdentityFixes rows := by
  refine mapEqSelf ?_
  intro r2 hr2
  obtain ⟨hnone, hsome⟩ := applyIdentityFixes_fields rows r2 hr2
  cases hp : r2.personName with
  | none =>
    obtain ⟨hL, hB, hG⟩ := hnone hp
    rw [fixIdentityRow_none _ r2 hp]
    have hLne : ∀ s, r2.lastName = some s → s ≠ "" := by
      intro s hs
      rw [hL] at hs
      cases hs
    have hGne : ∀ s, r2.gender = some s → s ≠ "" := by
      intro s hs
      rw [hG] at hs
      cases hs
    rw [cleanIdentity_eq_self r2 hLne hGne]
    exact setStatic_eq_self r2 none none none hL hB hG
  | some n =>
    obtain ⟨hL, hB, hG⟩ := hsome n hp
    rw [fixIdentityRow_some _ r2 n hp]
    have hgrp : ∀ h0 ∈ identityGroup (applyIdentityFixes rows) n,
        h0.lastName = canonicalField (fun x => x.lastName) (identityGroup rows n) ∧
        h0.birthDate = canonicalField (fun x => x.birthDate) (identityGroup rows n) ∧
        h0.gender = canonicalField (fun x => x.gender) (identityGroup rows n) := by
      intro h0 hmem
      obtain ⟨s2, hs2mem, hseq, hs2n⟩ := identityGroup_mem_elim _ n h0 hmem
      obtain ⟨_, hsome2⟩ := applyIdentityFixes_fields rows s2 hs2mem
      obtain ⟨h2L, h2B, h2G⟩ := hsome2 n hs2n
      subst hseq
      refine ⟨?_, ?_, ?_⟩
      · show emptyToNone s2.lastName = _
        rw [h2L]
        exact emptyToNone_eq_self _ fun v hv => canonical_lastName_ne rows n v hv
      · exact h2B
      · show emptyToNone s2.gender = _
        rw [h2G]
        exact emptyToNone_eq_self _ fun v hv => canonical_gender_ne rows n v hv
    have hne : identityGroup (applyIdentityFixes rows) n ≠ [] :=
      List.ne_nil_of_mem (identityGroup_mem_intro (applyIdentityFixes rows) n r2 hr2 hp)
    have hcL := canonicalField_const (fun x => x.lastName) _ _ hne fun h0 hm => (hgrp h0 hm).1
    have hcB := canonicalField_const (fun x => x.birthDate) _ _ hne fun h0 hm => (hgrp h0 hm).2.1
    have hcG := canonicalField_const (fun x => x.gender) _ _ hne fun h0 hm => (hgrp h0 hm).2.2
    rw [hcL, hcB, hcG]
    have hrneL : ∀ v, r2.lastName = some v → v ≠ "" := by
      intro v hv
      refine canonical_lastName_ne rows n v ?_
      rw [← hL]
      exact hv
    have hrneG : ∀ v, r2.gender = some v → v ≠ "" := by
      intro v hv
      refine canonical_gender_ne rows n v ?_
      rw [← hG]
      exact hv
    rw [cleanIdentity_eq_self r2 hrneL hrneG]
    exact setStatic_eq_self r2 _ _ _ hL hB hG

theorem repairIdentityConsistency_ok_length (rows : List BillRow) (hne : rows ≠ []) :
    ∃ out, repairIdentityConsistency rows = Except.ok out ∧ out.length = rows.length := by
  refine ⟨applyIdentityFixes rows, ?_, List.length_map _ _⟩
  unfold repairIdentityConsistency
  rw [if_neg (by simp [List.isEmpty_iff]; exact hne)]

theorem repairIdentityConsistency_idem (rows : List BillRow) :
    (repairIdentityConsistency rows).bind repairIdentityConsistency =
      repairIdentityConsistency rows := by
  cases rows with
  | nil => rfl
  | cons r t =>
    have h1 : repairIdentityConsistency (r :: t) =
        Except.ok (applyIdentityFixes (r :: t)) := rfl
    have hne2 : applyIdentityFixes (r :: t) ≠ [] := by
      unfold applyIdentityFixes
      simp
    obtain ⟨out, hout, _⟩ := repairIdentityConsistency_ok_length _ hne2
    rw [h1]
    show repairIdentityConsistency (applyIdentityFixes (r :: t)) = _
    rw [hout]
    have : out = applyIdentityFixes (applyIdentityFixes (r :: t)) := by
      have h2 : repairIdentityConsistency (applyIdentityFixes (r :: t)) =
          Except.ok (applyIdentityFixes (applyIdentityFixes (r :: t))) := by
        unfold repairIdentityConsistency
        rw [if_neg (by simp [List.isEmpty_iff]; exact hne2)]
      rw [h2] at hout
      injection hout with hout
      exact hout.symm
    rw [this, applyIdentityFixes_idem]

/-! ## Third-order deduplication lemmas -/

theorem dedup_subset (key : β → List Char) (le : β → β → Bool) (rows : List β) (r2 : β)
    (h : r2 ∈ uniqueByKey key (sortB le rows)) : r2 ∈ rows := by
  have hmem := uniqueByKeyGo_subset key [] _ r2 h
  rw [sortB_mem] at hmem
  exact hmem

theorem dedup_pairwise (key : β → List Char) (le : β → β → Bool) (rows : List β) :
    (uniqueByKey key (sortB le rows)).Pairwise fun a b => key a ≠ key b :=
  uniqueByKeyGo_pairwise key [] _

theorem dedup_exists (key : β → List Char) (le : β → β → Bool) (rows : List β) (s : β)
    (hs : s ∈ rows) : ∃ r2 ∈ uniqueByKey key (sortB le rows), key r2 = key s :=
  uniqueByKeyGo_exists key [] _ s ((sortB_mem _ _ _).mpr hs) (by simp)

theorem dedup_length_le (key : β → List Char) (le : β → β → Bool) (rows : List β) :
    (uniqueByKey key (sortB le rows)).length ≤ rows.length := by
  have h := (uniqueByKeyGo_sublist key [] (sortB le rows)).length_le
  rw [sortB_length] at h
  exact h

theorem dedup_max (key : β → List Char) (m : β → Int) (rows : List β) (r2 : β)
    (hr2 : r2 ∈ uniqueByKey key (sortB (keyedLe key m) rows)) (s : β) (hs : s ∈ rows)
    (hkey : key s = key r2) : m s ≤ m r2 := by
  obtain ⟨l₁, l₂, hdec, hne⟩ := uniqueByKeyGo_first key [] _ r2 hr2
  have hsorted := sortB_sorted (keyedLe key m) (keyedLe_trans key m) (keyedLe_total key m) rows
  have hs2 : s ∈ sortB (keyedLe key m) rows := (sortB_mem _ _ _).mpr hs
  rw [hdec] at hs2 hsorted
  rcases List.mem_append.mp hs2 with hcase | hcase
  · exact absurd hkey (hne s hcase)
  · rcases List.mem_cons.mp hcase with hcase | hcase
    · rw [hcase]
    · rcases List.pairwise_append.mp hsorted with ⟨_, hp2, _⟩
      rcases List.pairwise_cons.mp hp2 with ⟨hhead, _⟩
      have hle := hhead s hcase
      unfold keyedLe at hle
      rw [if_pos hkey.symm] at hle
      exact of_decide_eq_true hle

theorem dedupOnly_idem (key : β → List Char) (m : β → Int) (rows : List β) :
    uniqueByKey key (sortB (keyedLe key m)
      (uniqueByKey key (sortB (keyedLe key m) rows))) =
      uniqueByKey key (sortB (keyedLe key m) rows) := by
  have hsub := uniqueByKeyGo_sublist key [] (sortB (keyedLe key m) rows)
  have hsorted := sortB_sorted (keyedLe key m) (keyedLe_trans key m) (keyedLe_total key m) rows
  have hpw : (uniqueByKey key (sortB (keyedLe key m) rows)).Pairwise
      (fun a b => keyedLe key m a b = true) := hsorted.sublist hsub
  rw [sortB_eq_of_sorted _ _ hpw]
  exact uniqueByKeyGo_eq_self key [] _ (by simp) (uniqueByKeyGo_pairwise key [] _)

theorem deduplicateBillionaires_subset (rows : List BillRow) (r2 : BillRow)
    (h : r2 ∈ deduplicateBillionaires rows) : r2 ∈ rows :=
  dedup_subset billDedupKey billSortLe rows r2 h

theorem deduplicateAssets_subset (rows : List AssetRow) (r2 : AssetRow)
    (h : r2 ∈ deduplicateAssets rows) : r2 ∈ rows :=
  dedup_subset assetDedupKey assetSortLe rows r2 h

theorem cleanPrep_dedup_id_bill (rows : List BillRow) :
    cleanAndPrepareBillionaires (deduplicateBillionaires (cleanAndPrepareBillionaires rows)) =
      deduplicateBillionaires (cleanAndPrepareBillionaires rows) := by
  refine List.filter_eq_self.mpr ?_
  intro a ha
  have hmem : a ∈ cleanAndPrepareBillionaires rows :=
    deduplicateBillionaires_subset _ a ha
  exact (List.mem_filter.mp hmem).2

theorem cleanPrep_dedup_id_assets (rows : List AssetRow) :
    cleanAndPrepareAssets (deduplicateAssets (cleanAndPrepareAssets rows)) =
      deduplicateAssets (cleanAndPrepareAssets rows) := by
  refine List.filter_eq_self.mpr ?_
  intro a ha
  have hmem : a ∈ cleanAndPrepareAssets rows :=
    deduplicateAssets_subset _ a ha
  exact (List.mem_filter.mp hmem).2

theorem repairDeduplicationBillionaires_idem (rows : List BillRow) :
    repairDeduplicationBillionaires (repairDeduplicationBillionaires rows) =
      repairDeduplicationBillionaires rows := by
  show deduplicateBillionaires (cleanAndPrepareBillionaires (deduplicateBillionaires
    (cleanAndPrepareBillionaires rows))) = _
  rw [cleanPrep_dedup_id_bill]
  exact dedupOnly_idem billDedupKey billMeasure _

theorem repairDeduplicationAssets_idem (rows : List AssetRow) :
    repairDeduplicationAssets (repairDeduplicationAssets rows) =
      repairDeduplicationAssets rows := by
  show deduplicateAssets (cleanAndPrepareAssets (deduplicateAssets
    (cleanAndPrepareAssets rows))) = _
  rw [cleanPrep_dedup_id_assets]
  exact dedupOnly_idem assetDedupKey assetMeasure _

/-! ## Natural keys and key congruences -/

/-- The composite natural key of a person-snapshot row. -/
def billNatKey (r : BillRow) : Nat × Option String :=
  (r.date, r.personName)

/-- The composite natural key of an asset-snapshot row. -/
def assetNatKey (r : AssetRow) :
    Nat × Option String × Option String × Option String × Option String × Option String ×
      Option Bool × Option Int × Option Int :=
  (r.date, r.personName, r.ticker, r.companyName, r.currencyCode, r.exchange,
    r.interactive, r.exchangeRate, r.exerciseOptionPrice)

theorem billDedupKey_congr (a b : BillRow) (h : billNatKey a = billNatKey b) :
    billDedupKey a = billDedupKey b := by
  simp only [billNatKey, Prod.mk.injEq] at h
  obtain ⟨h1, h2⟩ := h
  unfold billDedupKey
  rw [h1, h2]

theorem assetDedupKey_congr (a b : AssetRow) (h : assetNatKey a = assetNatKey b) :
    assetDedupKey a = assetDedupKey b := by
  simp only [assetNatKey, Prod.mk.injEq] at h
  obtain ⟨h1, h2, h3, h4, h5, h6, h7, h8, h9⟩ := h
  unfold assetDedupKey
  rw [h1, h2, h3, h4, h5, h6, h7, h8, h9]

theorem billDedupKey_missing_name (a b : BillRow) (ha : a.personName = none)
    (hb : b.personName = none) (hd : a.date = b.date) :
    billDedupKey a = billDedupKey b := by
  unfold billDedupKey
  rw [ha, hb, hd]

/-! ## Zeroth-order lemmas -/

theorem cleanBillRow_idem (r : BillRow) : cleanBillRow (cleanBillRow r) = cleanBillRow r := by
  cases r
  simp [cleanBillRow, cleanValue_idem]

theorem cleanAssetRow_idem (r : AssetRow) : cleanAssetRow (cleanAssetRow r) = cleanAssetRow r := by
  cases r
  simp [cleanAssetRow, cleanValue_idem]

theorem cleanBillTable_idem (rows : List BillRow) :
    cleanWhitespaceAndUnknownsBill (cleanWhitespaceAndUnknownsBill rows) =
      cleanWhitespaceAndUnknownsBill rows := by
  unfold cleanWhitespaceAndUnknownsBill
  induction rows with
  | nil => rfl
  | cons r t ih => simp only [List.map_cons, cleanBillRow_idem, List.map_map] at ih ⊢; rw [ih]

theorem cleanAssetTable_idem (rows : List AssetRow) :
    cleanWhitespaceAndUnknownsAssets (cleanWhitespaceAndUnknownsAssets rows) =
      cleanWhitespaceAndUnknownsAssets rows := by
  unfold cleanWhitespaceAndUnknownsAssets
  induction rows with
  | nil => rfl
  | cons r t ih => simp only [List.map_cons, cleanAssetRow_idem, List.map_map] at ih ⊢; rw [ih]

/-- The string-typed values of a billionaires row, in schema order. -/
def billStringFields (r : BillRow) : List (Option String) :=
  [r.personName, r.lastName, r.gender, r.countryOfCitizenship, r.city, r.state,
    r.source, r.industries]

/-- The string-typed values of an assets row, in schema order. -/
def assetStringFields (r : AssetRow) : List (Option String) :=
  [r.personName, r.companyName, r.currencyCode, r.exchange, r.ticker]

/-! ## Concrete rows for witnesses and counterexamples -/

def mkBillRow (d : Nat) (pn ln : Option String) (fw : Option Int) : BillRow :=
  { date := d, personName := pn, lastName := ln, birthDate := none, gender := none,
    countryOfCitizenship := none, city := none, state := none, source := none,
    industries := none, finalWorth := fw, estWorthPrev := none, archivedWorth := none,
    privateAssetsWorth := none }

def mkAssetRow (d : Nat) (pn : Option String) (sh : Option Int) : AssetRow :=
  { date := d, personName := pn, companyName := none, currencyCode := none,
    currentPrice := none, exchange := none, exchangeRate := none,
    exerciseOptionPrice := none, interactive := none, numberOfShares := sh,
    sharePrice := none, ticker := none }

/-! ## Claims -/

/-- Claim C1: for every input table and every dedup key group in it, the
row surviving 3rd-order deduplication is one whose tie-break measure
(`finalWorth` for billionaires, `numberOfShares` for assets, missing
treated as zero) is maximal within that group: every input row with the
same dedup key has a measure no larger than the survivor's. -/
theorem claim_C1_dedup_tiebreak :
    (∀ (rows : List BillRow) (r2 : BillRow), r2 ∈ deduplicateBillionaires rows →
      ∀ s ∈ rows, billDedupKey s = billDedupKey r2 → billMeasure s ≤ billMeasure r2) ∧
    (∀ (rows : List AssetRow) (r2 : AssetRow), r2 ∈ deduplicateAssets rows →
      ∀ s ∈ rows, assetDedupKey s = assetDedupKey r2 → assetMeasure s ≤ assetMeasure r2) :=
  ⟨fun rows r2 h s hs hk => dedup_max billDedupKey billMeasure rows r2 h s hs hk,
   fun rows r2 h s hs hk => dedup_max assetDedupKey assetMeasure rows r2 h s hs hk⟩

/-- Claim C1 witness: two billionaire rows with the same key and worths 5
and 7 — the survivor is the 7 row and dominates the 5 row; and likewise
for two asset rows with 2 and 3 shares. -/
theorem claim_C1_witness :
    billMeasure (mkBillRow 1 (some "a") (some "x") (some 5)) ≤
      billMeasure (mkBillRow 1 (some "a") (some "x") (some 7)) ∧
    assetMeasure (mkAssetRow 1 (some "p") (some 2)) ≤
      assetMeasure (mkAssetRow 1 (some "p") (some 3)) :=
  ⟨claim_C1_dedup_tiebreak.1
      [mkBillRow 1 (some "a") (some "x") (some 5), mkBillRow 1 (some "a") (some "x") (some 7)]
      (mkBillRow 1 (some "a") (some "x") (some 7)) (by decide)
      (mkBillRow 1 (some "a") (some "x") (some 5)) (by decide) (by decide),
   claim_C1_dedup_tiebreak.2
      [mkAssetRow 1 (some "p") (some 2), mkAssetRow 1 (some "p") (some 3)]
      (mkAssetRow 1 (some "p") (some 3)) (by decide)
      (mkAssetRow 1 (some "p") (some 2)) (by decide) (by decide)⟩

/-- Claim C2: after 3rd-order deduplication any two distinct surviving
rows differ on the composite natural key — (date, personName) for
billionaires and the nine-component key for assets — the surviving rows
have pairwise distinct dedup keys, and every input row's dedup key is
still represented by exactly one survivor. -/
theorem claim_C2_dedup_key_unique :
    (∀ rows : List BillRow,
      (deduplicateBillionaires rows).Pairwise (fun a b => billNatKey a ≠ billNatKey b) ∧
      (deduplicateBillionaires rows).Pairwise (fun a b => billDedupKey a ≠ billDedupKey b) ∧
      ∀ s ∈ rows, ∃ r2 ∈ deduplicateBillionaires rows, billDedupKey r2 = billDedupKey s) ∧
    (∀ rows : List AssetRow,
      (deduplicateAssets rows).Pairwise (fun a b => assetNatKey a ≠ assetNatKey b) ∧
      (deduplicateAssets rows).Pairwise (fun a b => assetDedupKey a ≠ assetDedupKey b) ∧
      ∀ s ∈ rows, ∃ r2 ∈ deduplicateAssets rows, assetDedupKey r2 = assetDedupKey s) := by
  constructor
  · intro rows
    refine ⟨?_, dedup_pairwise billDedupKey billSortLe rows, ?_⟩
    · exact (dedup_pairwise billDedupKey billSortLe rows).imp fun hk hnat =>
        hk (billDedupKey_congr _ _ hnat)
    · intro s hs
      exact dedup_exists billDedupKey billSortLe rows s hs
  · intro rows
    refine ⟨?_, dedup_pairwise assetDedupKey assetSortLe rows, ?_⟩
    · exact (dedup_pairwise assetDedupKey assetSortLe rows).imp fun hk hnat =>
        hk (assetDedupKey_congr _ _ hnat)
    · intro s hs
      exact dedup_exists assetDedupKey assetSortLe rows s hs

/-- Claim C2 witness: in a two-row table with a duplicated key, the
duplicated input row's key is represented among the survivors, for both
dataset types. -/
theorem claim_C2_witness :
    (∃ r2 ∈ deduplicateBillionaires
      [mkBillRow 1 (some "a") none (some 5), mkBillRow 1 (some "a") none (some 7)],
      billDedupKey r2 = billDedupKey (mkBillRow 1 (some "a") none (some 5))) ∧
    (∃ r2 ∈ deduplicateAssets [mkAssetRow 1 (some "p") (some 2)],
      assetDedupKey r2 = assetDedupKey (mkAssetRow 1 (some "p") (some 2))) :=
  ⟨(claim_C2_dedup_key_unique.1
      [mkBillRow 1 (some "a") none (some 5), mkBillRow 1 (some "a") none (some 7)]).2.2
      (mkBillRow 1 (some "a") none (some 5)) (by decide),
   (claim_C2_dedup_key_unique.2 [mkAssetRow 1 (some "p") (some 2)]).2.2
      (mkAssetRow 1 (some "p") (some 2)) (by decide)⟩

/-- Claim C3: every repair order is idempotent.  The 0th-order normalizer,
the 2nd-order temporal filler and the 3rd-order deduplicator satisfy
`f (f x) = f x` literally; the 1st-order identity resolver, which fails on
the empty table, is idempotent in the Kleisli sense — running it on its
own successful output reproduces that output, and its error propagates. -/
theorem claim_C3_idempotence (b : List BillRow) (a : List AssetRow) :
    cleanWhitespaceAndUnknownsBill (cleanWhitespaceAndUnknownsBill b) =
      cleanWhitespaceAndUnknownsBill b ∧
    cleanWhitespaceAndUnknownsAssets (cleanWhitespaceAndUnknownsAssets a) =
      cleanWhitespaceAndUnknownsAssets a ∧
    (repairIdentityConsistency b).bind repairIdentityConsistency =
      repairIdentityConsistency b ∧
    repairSecondOrderFields (repairSecondOrderFields b) = repairSecondOrderFields b ∧
    repairDeduplicationBillionaires (repairDeduplicationBillionaires b) =
      repairDeduplicationBillionaires b ∧
    repairDeduplicationAssets (repairDeduplicationAssets a) = repairDeduplicationAssets a :=
  ⟨cleanBillTable_idem b, cleanAssetTable_idem a, repairIdentityConsistency_idem b,
   repairSecondOrderFields_idem b, repairDeduplicationBillionaires_idem b,
   repairDeduplicationAssets_idem a⟩

/-- Claim C6: after the 0th-order normalizer, every non-missing
string-typed value is nonempty, trimmed (stripping it again changes
nothing), and matches neither `(?i)^unknown$` nor `(?i)^unknown_-?\d+$`. -/
theorem claim_C6_normalized_strings :
    (∀ (rows : List BillRow) (r2 : BillRow), r2 ∈ cleanWhitespaceAndUnknownsBill rows →
      ∀ o ∈ billStringFields r2, ∀ s, o = some s →
        s ≠ "" ∧ pyStrip s = s ∧ isUnknownSentinel s = false) ∧
    (∀ (rows : List AssetRow) (r2 : AssetRow), r2 ∈ cleanWhitespaceAndUnknownsAssets rows →
      ∀ o ∈ assetStringFields r2, ∀ s, o = some s →
        s ≠ "" ∧ pyStrip s = s ∧ isUnknownSentinel s = false) := by
  constructor
  · intro rows r2 hr2 o ho s hos
    obtain ⟨r, hr, hreq⟩ := List.mem_map.mp hr2
    subst hreq
    simp only [billStringFields, cleanBillRow, List.mem_cons, List.not_mem_nil, or_false] at ho
    rcases ho with h | h | h | h | h | h | h | h <;>
      (rw [h] at hos; exact cleanValue_ok _ s hos)
  · intro rows r2 hr2 o ho s hos
    obtain ⟨r, hr, hreq⟩ := List.mem_map.mp hr2
    subst hreq
    simp only [assetStringFields, cleanAssetRow, List.mem_cons, List.not_mem_nil,
      or_false] at ho
    rcases ho with h | h | h | h | h <;>
      (rw [h] at hos; exact cleanValue_ok _ s hos)

/-- Claim C6 witness: cleaning a row whose lastName is padded and whose
personName is a padded unknown sentinel yields a trimmed, non-sentinel
lastName, and likewise for an asset ticker. -/
theorem claim_C6_witness :
    (("Ab" : String) ≠ "" ∧ pyStrip "Ab" = "Ab" ∧ isUnknownSentinel "Ab" = false) ∧
    (("T" : String) ≠ "" ∧ pyStrip "T" = "T" ∧ isUnknownSentinel "T" = false) :=
  ⟨claim_C6_normalized_strings.1 [mkBillRow 1 (some "  unknown_42  ") (some " Ab ") none]
      (cleanBillRow (mkBillRow 1 (some "  unknown_42  ") (some " Ab ") none)) (by decide)
      (some "Ab") (by decide) "Ab" rfl,
   claim_C6_normalized_strings.2 [{ mkAssetRow 1 (some "p") none with ticker := some " T " }]
      (cleanAssetRow { mkAssetRow 1 (some "p") none with ticker := some " T " }) (by decide)
      (some "T") (by decide) "T" rfl⟩

/-- Claim C4 counterexample: the 2nd-order filler first converts empty
strings to null, so a person whose only `city` value is the non-missing
empty string ends with a missing `city` — the claim's "any row … has a
non-missing value" premise is satisfied, yet the output is missing. -/
theorem claim_C4_counterexample :
    ({ mkBillRow 1 (some "a") none none with city := some "" } : BillRow).city = some "" ∧
    (repairSecondOrderFields [{ mkBillRow 1 (some "a") none none with city := some "" }]).map
      (fun r => (r.personName, r.city)) = [(some "a", none)] :=
  ⟨rfl, by decide⟩

/-- Claim C4 (amended): in a full-table 2nd-order run, for every person
and slowly-changing field, if some row of the person has a value that is
non-missing and non-empty (empty strings are converted to missing by the
repair itself), then every output row of that person is non-missing in
that field. -/
theorem claim_C4_amended (rows : List BillRow) (s : BillRow) (hs : s ∈ rows) (r2 : BillRow)
    (hr2 : r2 ∈ repairSecondOrderFields rows) (hkey : r2.personName = s.personName) :
    ((emptyToNone s.countryOfCitizenship).isSome = true →
      (r2.countryOfCitizenship).isSome = true) ∧
    ((emptyToNone s.city).isSome = true → (r2.city).isSome = true) ∧
    ((emptyToNone s.state).isSome = true → (r2.state).isSome = true) ∧
    ((emptyToNone s.source).isSome = true → (r2.source).isSome = true) ∧
    ((emptyToNone s.industries).isSome = true → (r2.industries).isSome = true) :=
  ⟨fun h => secondOrder_complete_Country rows s hs h r2 hr2 hkey,
   fun h => secondOrder_complete_City rows s hs h r2 hr2 hkey,
   fun h => secondOrder_complete_State rows s hs h r2 hr2 hkey,
   fun h => secondOrder_complete_Source rows s hs h r2 hr2 hkey,
   fun h => secondOrder_complete_Industries rows s hs h r2 hr2 hkey⟩

/-- Claim C4 witness: person "a" has `city = "m"` on day 1 and a missing
city on day 2; after the 2nd-order repair the day-2 row has a city. -/
theorem claim_C4_witness :
    (({ mkBillRow 2 (some "a") none none with city := some "m" } : BillRow).city).isSome =
      true :=
  (claim_C4_amended
    [{ mkBillRow 1 (some "a") none none with city := some "m" },
      mkBillRow 2 (some "a") none none]
    { mkBillRow 1 (some "a") none none with city := some "m" } (by decide)
    { mkBillRow 2 (some "a") none none with city := some "m" } (by decide) (by decide)).2.1
    (by decide)

/-- Claim C5 counterexample: a row whose `personName` is missing but whose
`lastName` is present loses its `lastName` — the left join on the identity
key does not match null keys, so the canonical value is not applied and
the field is overwritten with null, not with the most-recent non-missing
value "Smith" the claim requires. -/
theorem claim_C5_counterexample :
    (mkBillRow 1 none (some "Smith") none).lastName = some "Smith" ∧
    (repairIdentityConsistency [mkBillRow 1 none (some "Smith") none]).map
      (fun l => l.map fun r => r.lastName) = Except.ok [none] :=
  ⟨rfl, rfl⟩

/-- Claim C5 (amended): for every identity key value that is non-missing,
every output row of the 1st-order resolver sharing that key carries, in
each static field, the value of that person's most-recent-dated row whose
value is non-missing — where, for `lastName` and `gender`, empty strings
count as missing — or missing when no row has such a value; rows whose
identity key is missing get all three static fields set to missing. -/
theorem claim_C5_amended (rows out : List BillRow)
    (hok : repairIdentityConsistency rows = Except.ok out) (r2 : BillRow) (hr2 : r2 ∈ out) :
    (r2.personName = none → r2.lastName = none ∧ r2.birthDate = none ∧ r2.gender = none) ∧
    (∀ n, r2.personName = some n →
      staticOk rows n (fun x => emptyToNone x.lastName) r2.lastName ∧
      staticOk rows n (fun x => x.birthDate) r2.birthDate ∧
      staticOk rows n (fun x => emptyToNone x.gender) r2.gender) := by
  unfold repairIdentityConsistency at hok
  by_cases he : rows.isEmpty
  · rw [if_pos he] at hok
    cases hok
  · rw [if_neg he] at hok
    injection hok with hok
    subst hok
    exact applyIdentityFixes_spec rows r2 hr2

/-- Claim C5 witness: person "a" has lastName "" on day 2 and "Smith" on
day 1; the resolver gives every row lastName "Smith", the most recent
value that is non-missing after empty-string cleaning. -/
theorem claim_C5_witness :
    staticOk [mkBillRow 2 (some "a") (some "") none, mkBillRow 1 (some "a") (some "Smith") none]
      "a" (fun x => emptyToNone x.lastName) (some "Smith") :=
  (claim_C5_amended
    [mkBillRow 2 (some "a") (some "") none, mkBillRow 1 (some "a") (some "Smith") none]
    (applyIdentityFixes
      [mkBillRow 2 (some "a") (some "") none, mkBillRow 1 (some "a") (some "Smith") none])
    rfl
    (fixIdentityRow
      [mkBillRow 2 (some "a") (some "") none, mkBillRow 1 (some "a") (some "Smith") none]
      (mkBillRow 2 (some "a") (some "") none)) (by decide)).2 "a" (by decide) |>.1

/-- Claim C7 counterexample: `repair_identity_consistency` on the empty
table does not return a table at all — `find_canonical_identity_values`
produces a dataframe with no columns and `apply_identity_fixes` raises a
column-not-found error selecting the id keys from it. -/
theorem claim_C7_counterexample :
    repairIdentityConsistency ([] : List BillRow) =
      Except.error "ColumnNotFoundError: personName" :=
  rfl

/-- Claim C7 (amended): the 0th-order normalizer and the 2nd-order filler
preserve row count exactly on every table; the 1st-order resolver
preserves row count exactly on every nonempty table and fails on the empty
one; the 3rd-order deduplicator never increases row count. -/
theorem claim_C7_amended (b : List BillRow) (a : List AssetRow) :
    (cleanWhitespaceAndUnknownsBill b).length = b.length ∧
    (cleanWhitespaceAndUnknownsAssets a).length = a.length ∧
    (repairSecondOrderFields b).length = b.length ∧
    (b ≠ [] → ∃ out, repairIdentityConsistency b = Except.ok out ∧ out.length = b.length) ∧
    (repairDeduplicationBillionaires b).length ≤ b.length ∧
    (repairDeduplicationAssets a).length ≤ a.length := by
  refine ⟨List.length_map _ _, List.length_map _ _, repairSecondOrderFields_length b,
    fun hne => repairIdentityConsistency_ok_length b hne, ?_, ?_⟩
  · calc (repairDeduplicationBillionaires b).length
        ≤ (cleanAndPrepareBillionaires b).length :=
          dedup_length_le billDedupKey billSortLe _
      _ ≤ b.length := List.length_filter_le _ _
  · calc (repairDeduplicationAssets a).length
        ≤ (cleanAndPrepareAssets a).length := dedup_length_le assetDedupKey assetSortLe _
      _ ≤ a.length := List.length_filter_le _ _

/-- Claim C7 witness: on a one-row table the 1st-order resolver succeeds
and preserves the row count. -/
theorem claim_C7_witness :
    ∃ out, repairIdentityConsistency [mkBillRow 1 (some "a") none none] = Except.ok out ∧
      out.length = [mkBillRow 1 (some "a") none none].length :=
  (claim_C7_amended [mkBillRow 1 (some "a") none none] []).2.2.2.1 (by decide)

/-- Claim C8 counterexample: the update step deletes existing rows dated
with the current run date before appending, so an existing row with the
run's date is not present in the updated table. -/
theorem claim_C8_counterexample :
    mkBillRow 5 (some "a") none none ∈ [mkBillRow 5 (some "a") none none] ∧
    updateDatasetBillionaires [] [mkBillRow 5 (some "a") none none] 5 = [] :=
  ⟨by decide, by decide⟩

/-- Claim C8 (amended): the update step preserves unchanged every existing
row whose date differs from the current run date, and appends every newly
fetched row; only existing rows bearing the run's date are dropped (they
are replaced by the new batch). -/
theorem claim_C8_amended (dateOf : β → Nat) (sortLe : β → β → Bool)
    (newRows existingRows : List β) (currentDate : Nat) :
    (∀ r ∈ existingRows, dateOf r ≠ currentDate →
      r ∈ updateDataset dateOf sortLe newRows existingRows currentDate) ∧
    (∀ s ∈ newRows, s ∈ updateDataset dateOf sortLe newRows existingRows currentDate) := by
  constructor
  · intro r hr hd
    unfold updateDataset
    rw [sortB_mem, List.mem_append]
    left
    exact List.mem_filter.mpr ⟨hr, decide_eq_true hd⟩
  · intro s hsmem
    unfold updateDataset
    rw [sortB_mem, List.mem_append]
    right
    exact hsmem

/-- Claim C8 witness: an existing row dated 4 survives an update run dated
5. -/
theorem claim_C8_witness :
    mkBillRow 4 (some "a") none none ∈
      updateDataset (fun r => r.date) nameDateLe [] [mkBillRow 4 (some "a") none none] 5 :=
  (claim_C8_amended (fun r => r.date) nameDateLe [] [mkBillRow 4 (some "a") none none] 5).1
    (mkBillRow 4 (some "a") none none) (by decide) (by decide)

/-- Claim C9 counterexample: `repair_deduplication` on an unknown dataset
type does not fail — it returns its input unchanged (both the prepare step
and the dispatch merely print a warning), contradicting the claim that
every dataset-type operation fails immediately. -/
theorem claim_C9_counterexample :
    repairDeduplicationDispatch (DatasetPayload.bill [mkBillRow 1 (some "a") none none])
      "bogus" = DatasetPayload.bill [mkBillRow 1 (some "a") none none] :=
  rfl

/-- Claim C9 (amended): loading, saving and sort-key lookup fail
immediately with an error on any dataset type other than "billionaires"
and "assets"; the 3rd-order deduplication repair instead returns its input
table unchanged with a warning. -/
theorem claim_C9_amended (t : String) (h1 : t ≠ "billionaires") (h2 : t ≠ "assets") :
    getSortColumns t = Except.error ("Unknown dataset type: " ++ t) ∧
    (∀ (bf : Option (List BillRow)) (af : Option (List AssetRow)),
      loadDataset bf af t = Except.error ("Unknown dataset type: " ++ t)) ∧
    (∀ p, saveDataset p t = Except.error ("Unknown dataset type: " ++ t)) ∧
    (∀ p, repairDeduplicationDispatch p t = p) := by
  refine ⟨?_, ?_, ?_, ?_⟩
  · unfold getSortColumns
    rw [if_neg h1, if_neg h2]
  · intro bf af
    unfold loadDataset
    rw [if_neg h1, if_neg h2]
  · intro p
    unfold saveDataset
    rw [if_neg h1, if_neg h2]
  · intro p
    unfold repairDeduplicationDispatch
    rw [if_neg h1, if_neg h2]

/-- Claim C9 witness: the dataset type "both" is rejected by the loaders
and lookup but passes through the dedup repair unchanged. -/
theorem claim_C9_witness :
    getSortColumns "both" = Except.error ("Unknown dataset type: " ++ "both") ∧
    repairDeduplicationDispatch (DatasetPayload.assets []) "both" = DatasetPayload.assets [] :=
  ⟨(claim_C9_amended "both" (by decide) (by decide)).1,
   (claim_C9_amended "both" (by decide) (by decide)).2.2.2 (DatasetPayload.assets [])⟩

/-- Claim C10: rows with a missing `personName` and equal dates share the
same billionaires dedup key; hence after 3rd-order billionaires
deduplication at most one row per date has a missing `personName`; and any
such survivor has a non-missing `lastName`, because the pre-step drops
rows missing both identifiers. -/
theorem claim_C10_missing_name (rows : List BillRow) :
    (∀ r s : BillRow, r.personName = none → s.personName = none → r.date = s.date →
      billDedupKey r = billDedupKey s) ∧
    (repairDeduplicationBillionaires rows).Pairwise
      (fun a b => a.personName = none → b.personName = none → a.date ≠ b.date) ∧
    (∀ r2 ∈ repairDeduplicationBillionaires rows, r2.personName = none →
      r2.lastName ≠ none) := by
  refine ⟨billDedupKey_missing_name, ?_, ?_⟩
  · refine (dedup_pairwise billDedupKey billSortLe (cleanAndPrepareBillionaires rows)).imp ?_
    intro a b hk ha hb hd
    exact hk (billDedupKey_missing_name a b ha hb hd)
  · intro r2 hr2 hpn
    have hmem : r2 ∈ cleanAndPrepareBillionaires rows :=
      deduplicateBillionaires_subset _ r2 hr2
    have hpred := of_decide_eq_true (List.mem_filter.mp hmem).2
    intro hln
    exact hpred ⟨hpn, hln⟩

/-- Claim C10 witness: a surviving row with a missing personName keeps a
non-missing lastName. -/
theorem claim_C10_witness :
    (mkBillRow 1 none (some "x") none).lastName ≠ none :=
  (claim_C10_missing_name [mkBillRow 1 none (some "x") none]).2.2
    (mkBillRow 1 none (some "x") none) (by decide) rfl

end RedFlags
